import Mathlib

/-!
# COFFI symbol table (`coffi/coffi_symbols.hpp`)

A shallow embedding of `symbol_tmpl<Record>` and `coffi_symbols`, followed by the
properties of the symbol-table specification that were checked against it.

Conventions of the embedding

* Machine integers are natural numbers; every place where the source narrows or
  wraps a value carries an explicit `% 2 ^ w`.
* A pointer into `symbols_` is the position of the element it points to.
* `std::istream` is a value (`istream`) threaded through the functions that read
  from it; `std::ostream` is the list of the bytes written so far.
* A `while` loop whose termination is not evident from its text takes a `fuel`
  argument and answers `none` when the fuel runs out before the loop ends.
-/

namespace COFFI

/-! ## Record layouts -/

/-- The template argument `Record` of `symbol_tmpl`: the narrow `symbol_record` or the
wide `big_symbol_record`. -/
inductive Record where
  | symbol_record
  | big_symbol_record
deriving DecidableEq, Repr

/-- Modelled from the spec: `sizeof(Record)` for the two record structs, which are declared in
`coffi_types.hpp` (not part of the sources at hand); the widths are the totals of the wire
format table, 18 bytes narrow and 20 bytes wide. -/
def Record.sizeof : Record → Nat
  | .symbol_record => 18
  | .big_symbol_record => 20

/-- Modelled from the spec: `sizeof(auxiliary_symbol_record)`, the payload width shared by both
formats (the struct is declared in `coffi_types.hpp`); an auxiliary record fills one narrow
slot, 18 bytes. -/
def sizeof_auxiliary_symbol_record : Nat := 18

/-- One byte of a byte image. -/
abbrev byte := Fin 256

/-- The low 8 bits of a value. -/
def to_byte (v : Nat) : byte := ⟨v % 256, Nat.mod_lt v (by decide)⟩

/-- Modelled from the spec: the opaque auxiliary record, `sizeof_auxiliary_symbol_record` raw
bytes. -/
structure auxiliary_symbol_record where
  value : List byte
deriving DecidableEq, Repr

/-- Modelled from the spec: the fields shared by `symbol_record` and `big_symbol_record`
(declared in `coffi_types.hpp`): `char name[8]`, `uint32_t value`, `section_number`
(`uint16_t` narrow, `uint32_t` wide), `uint16_t type`, `uint8_t storage_class`,
`uint8_t aux_symbols_number`. -/
structure header_record where
  name : List byte
  value : Nat
  section_number : Nat
  type : Nat
  storage_class : Nat
  aux_symbols_number : Nat
deriving DecidableEq, Repr

/-- Width in bits of the `section_number` field of a record layout. -/
def Record.section_bits : Record → Nat
  | .symbol_record => 16
  | .big_symbol_record => 32

/-- The values the C++ field types of a record admit. -/
def header_record.typed (R : Record) (h : header_record) : Prop :=
  h.name.length = 8 ∧ h.value < 2 ^ 32 ∧
  h.section_number < 2 ^ R.section_bits ∧ h.type < 2 ^ 16 ∧
  h.storage_class < 2 ^ 8 ∧ h.aux_symbols_number < 2 ^ 8

instance (R : Record) (h : header_record) : Decidable (h.typed R) := by
  unfold header_record.typed; infer_instance

/-- The values the C++ type of an auxiliary record admits. -/
def auxiliary_symbol_record.typed (a : auxiliary_symbol_record) : Prop :=
  a.value.length = sizeof_auxiliary_symbol_record

instance (a : auxiliary_symbol_record) : Decidable a.typed := by
  unfold auxiliary_symbol_record.typed; infer_instance

/-- Two bytes of a 16-bit field, least significant first. -/
def le16 (v : Nat) : List byte := [to_byte v, to_byte (v / 256)]

/-- Four bytes of a 32-bit field, least significant first. -/
def le32 (v : Nat) : List byte :=
  [to_byte v, to_byte (v / 256), to_byte (v / 65536), to_byte (v / 16777216)]

/-- The byte at offset `o` of a byte image, as a number. -/
def byte_at (bs : List byte) (o : Nat) : Nat := (bs.getD o 0).val

/-- The 16-bit value stored at offset `o` of a byte image. -/
def of_le16 (bs : List byte) (o : Nat) : Nat :=
  byte_at bs o + 256 * byte_at bs (o + 1)

/-- The 32-bit value stored at offset `o` of a byte image. -/
def of_le32 (bs : List byte) (o : Nat) : Nat :=
  byte_at bs o + 256 * byte_at bs (o + 1) + 65536 * byte_at bs (o + 2) +
    16777216 * byte_at bs (o + 3)

/-- Modelled from the spec: the object representation of a record, what
`reinterpret_cast<char*>(&header)` exposes: the fields in the order and widths of the wire
format table, without padding, multi-byte fields least significant byte first. -/
def Record.to_bytes : Record → header_record → List byte
  | .symbol_record, h =>
      h.name ++ le32 h.value ++ le16 h.section_number ++ le16 h.type ++
        [to_byte h.storage_class, to_byte h.aux_symbols_number]
  | .big_symbol_record, h =>
      h.name ++ le32 h.value ++ le32 h.section_number ++ le16 h.type ++
        [to_byte h.storage_class, to_byte h.aux_symbols_number]

/-- Modelled from the spec: the record whose object representation is a given byte image
(the inverse view of `Record.to_bytes`). -/
def Record.of_bytes : Record → List byte → header_record
  | .symbol_record, bs =>
      { name := bs.take 8, value := of_le32 bs 8, section_number := of_le16 bs 12,
        type := of_le16 bs 14, storage_class := byte_at bs 16,
        aux_symbols_number := byte_at bs 17 }
  | .big_symbol_record, bs =>
      { name := bs.take 8, value := of_le32 bs 8, section_number := of_le32 bs 12,
        type := of_le16 bs 16, storage_class := byte_at bs 18,
        aux_symbols_number := byte_at bs 19 }

/-- The all-zero record left by `std::fill_n(..., sizeof(header), 0)`. -/
def header_record.zero : header_record :=
  { name := List.replicate 8 0, value := 0, section_number := 0, type := 0,
    storage_class := 0, aux_symbols_number := 0 }

/-! ## Streams -/

/-- The part of `std::istream` the source relies on, after the C++ standard library (C++11 and
later): the controlled byte sequence, the get position, `eofbit`, `failbit` (standing for
`failbit | badbit`), and whether the stream buffer accepts a get position beyond the end of
the sequence. The buffer of a `std::ifstream` does (the position of a file may lie past
its end), the buffer of a `std::istringstream` does not. -/
structure istream where
  buf : List byte
  gpos : Nat
  eofbit : Bool
  failbit : Bool
  seek_past_end : Bool
deriving DecidableEq, Repr

/-- The state test `good()`: neither `eofbit` nor `failbit` is set. -/
def istream.good (s : istream) : Bool := !s.eofbit && !s.failbit

/-- The number of bytes a read can still extract: none from a stream that is not good. -/
def istream.available (s : istream) : Nat :=
  if s.good then s.buf.length - s.gpos else 0

/-- The call `read(p, n)`: on a good stream extracts up to `n` bytes; a short extraction sets
`eofbit | failbit`. On a stream that is not good the sentry sets `failbit` and nothing is
extracted. Returns the extracted bytes (their number is `gcount()`). -/
def istream.read (s : istream) (n : Nat) : List byte × istream :=
  if s.good then
    let got := (s.buf.drop s.gpos).take n
    if got.length < n then
      (got, { s with gpos := s.gpos + got.length, eofbit := true, failbit := true })
    else
      (got, { s with gpos := s.gpos + n })
  else
    ([], { s with failbit := true })

/-- The call `tellg()`: the get position, or `-1` (after the sentry has set `failbit`) when
the stream is not good. -/
def istream.tellg (s : istream) : Int × istream :=
  if s.good then ((s.gpos : Int), s) else (-1, { s with failbit := true })

/-- The call `seekg(pos)`: clears `eofbit`; does nothing more on a failed stream; otherwise
moves the get position, and sets `failbit` when the stream buffer rejects the position. -/
def istream.seekg (s : istream) (p : Int) : istream :=
  let s := { s with eofbit := false }
  if s.failbit then s
  else if 0 ≤ p ∧ (p ≤ (s.buf.length : Int) ∨ s.seek_past_end = true) then
    { s with gpos := p.toNat }
  else { s with failbit := true }

/-- The bytes written to a `std::ostream`, in order. -/
abbrev ostream := List byte

/-- The call `write(p, n)` with the `n` bytes at `p`. -/
def ostream.write (s : ostream) (bytes : List byte) : ostream := s ++ bytes

/-! ## `symbol_tmpl<Record>` -/

/-- The data members of `symbol_tmpl<Record>`; the name provider `stn_` is passed to the
operations that use it. -/
structure symbol_tmpl (R : Record) where
  header : header_record
  auxs : List auxiliary_symbol_record
  index_ : Nat
deriving DecidableEq, Repr

/-- The wide symbol, element type of the table. -/
abbrev symbol := symbol_tmpl Record.big_symbol_record

/-- The narrow symbol. -/
abbrev narrow_symbol := symbol_tmpl Record.symbol_record

namespace symbol_tmpl

variable {R : Record}

/-- The constructor `symbol_tmpl(stn)`: zero-fills the header. The source leaves `index_`
unset; every caller assigns it with `set_index` before it is read. -/
def ctor (R : Record) : symbol_tmpl R :=
  { header := header_record.zero, auxs := [], index_ := 0 }

/-- The values the C++ types of the members admit. -/
def typed (s : symbol_tmpl R) : Prop :=
  s.header.typed R ∧ (∀ a ∈ s.auxs, a.typed) ∧ s.index_ < 2 ^ 32

instance (s : symbol_tmpl R) : Decidable s.typed := by
  unfold typed; infer_instance

/-- Modelled from the spec: the getter that `COFFI_GET_SET_ACCESS(uint8_t,
aux_symbols_number)` declares (the macro is defined in `coffi_utils.hpp`): it returns the
header field. -/
def get_aux_symbols_number (s : symbol_tmpl R) : Nat := s.header.aux_symbols_number

/-- Modelled from the spec: the setter that `COFFI_GET_SET_ACCESS(uint8_t,
aux_symbols_number)` declares: it stores its `uint8_t` argument, so a wider value passed
to it is narrowed to 8 bits. -/
def set_aux_symbols_number (s : symbol_tmpl R) (v : Nat) : symbol_tmpl R :=
  { s with header := { s.header with aux_symbols_number := v % 2 ^ 8 } }

/-- The getter `get_index()`. -/
def get_index (s : symbol_tmpl R) : Nat := s.index_

/-- The setter `set_index(uint32_t)`. -/
def set_index (s : symbol_tmpl R) (index : Nat) : symbol_tmpl R :=
  { s with index_ := index % 2 ^ 32 }

/-- The getter `get_name()`, with the provider's `string_to_name`. -/
def get_name (string_to_name : List byte → String) (s : symbol_tmpl R) : String :=
  string_to_name s.header.name

/-- The setter `set_name(value)`: the provider's `name_to_string` rewrites the name field. -/
def set_name (name_to_string : String → List byte → List byte) (s : symbol_tmpl R)
    (value : String) : symbol_tmpl R :=
  { s with header := { s.header with name := name_to_string value s.header.name } }

/-- The getter `get_auxiliary_symbols()`. -/
def get_auxiliary_symbols (s : symbol_tmpl R) : List auxiliary_symbol_record := s.auxs

/-- The memory of `header` after `read` stored the extracted bytes at its start. -/
def stored (old got : List byte) : List byte := got ++ old.drop got.length

/-- The auxiliary loop of `load`, with `n` iterations left (the header is not written in
the loop, so the bound `get_aux_symbols_number()` is fixed). -/
def load_auxs (R : Record) (aux_padding : Nat) :
    Nat → symbol_tmpl R → istream → Bool × symbol_tmpl R × istream
  | 0, self, stream => (true, self, stream)
  | n + 1, self, stream =>
    let (startg, stream) := stream.tellg
    let (got, stream) := stream.read sizeof_auxiliary_symbol_record
    let a : auxiliary_symbol_record := { value := got }
    let (cur, stream) := stream.tellg
    let stream := stream.seekg (cur + (aux_padding : Int))
    let (endg, stream) := stream.tellg
    if endg - startg ≠ (R.sizeof : Int) then (false, self, stream)
    else load_auxs R aux_padding n { self with auxs := self.auxs ++ [a] } stream

/-- The method `load(stream)`. -/
def load (self : symbol_tmpl R) (stream : istream) : Bool × symbol_tmpl R × istream :=
  let aux_padding := R.sizeof - sizeof_auxiliary_symbol_record
  let (got, stream) := stream.read R.sizeof
  let self := { self with header := R.of_bytes (stored (R.to_bytes self.header) got) }
  if got.length ≠ R.sizeof then (false, self, stream)
  else load_auxs R aux_padding self.get_aux_symbols_number self stream

/-- The method `save(stream)`. -/
def save (self : symbol_tmpl R) (stream : ostream) : symbol_tmpl R × ostream :=
  let aux_padding := List.replicate (R.sizeof - sizeof_auxiliary_symbol_record + 1) 0
  let self := self.set_aux_symbols_number self.auxs.length
  let stream := stream.write (R.to_bytes self.header)
  let stream := self.auxs.foldl
    (fun stream aux =>
      (ostream.write stream aux.value).write
        (aux_padding.take (R.sizeof - sizeof_auxiliary_symbol_record)))
    stream
  (self, stream)

/-- The method `widen_record()`. -/
def widen_record (self : symbol_tmpl R) : symbol :=
  { header :=
      { name := self.header.name
        value := self.header.value
        section_number := self.header.section_number % 2 ^ 32
        type := self.header.type
        storage_class := self.header.storage_class
        aux_symbols_number := self.header.aux_symbols_number }
    auxs := self.auxs
    index_ := self.index_ }

/-- The method `narrow_record()`. -/
def narrow_record (self : symbol_tmpl R) : narrow_symbol :=
  { header :=
      { name := self.header.name
        value := self.header.value
        section_number := self.header.section_number % 2 ^ 16
        type := self.header.type
        storage_class := self.header.storage_class
        aux_symbols_number := self.header.aux_symbols_number }
    auxs := self.auxs
    index_ := self.index_ }

end symbol_tmpl

/-! ## `coffi_symbols` -/

/-- Modelled from the spec: the three values the table reads from `coff_header` (declared in
`coffi_headers.hpp`): `get_symbol_table_offset()` and `get_symbols_count()`, both
`uint32_t`, and `get_is_bigobj()`. -/
structure coff_header where
  symbol_table_offset : Nat
  symbols_count : Nat
  is_bigobj : Bool
deriving DecidableEq, Repr

/-- The values the C++ types of the header getters admit. -/
def coff_header.typed (h : coff_header) : Prop :=
  h.symbol_table_offset < 2 ^ 32 ∧ h.symbols_count < 2 ^ 32

instance (h : coff_header) : Decidable h.typed := by
  unfold coff_header.typed; infer_instance

/-- The data members of `coffi_symbols`. -/
structure coffi_symbols where
  symbols_ : List symbol
  is_bigobj : Bool
deriving DecidableEq, Repr

/-- What a lookup hands back: a pointer to the element at a position, `nullptr`, or no
pointer at all because the lookup evaluated `symbols_[pos]` with `pos` outside the vector
(undefined behaviour in the source). -/
inductive lookup where
  | found (pos : Nat)
  | nullptr
  | out_of_bounds (pos : Nat)
deriving DecidableEq, Repr

namespace coffi_symbols

/-- The constructor `coffi_symbols()`. -/
def ctor : coffi_symbols := { symbols_ := [], is_bigobj := false }

/-- The `while (L <= R)` loop of `get_symbol(uint32_t)`; `L`, `R` and `m` are `uint32_t`. -/
def get_symbol_loop (symbols_ : List symbol) (index : Nat) : Nat → Nat → Nat → Option lookup
  | 0, _, _ => none
  | fuel + 1, L, R =>
    if L ≤ R then
      let m := (L + R) % 2 ^ 32 / 2
      match symbols_[m]? with
      | none => some (lookup.out_of_bounds m)
      | some s =>
        if s.get_index < index then
          get_symbol_loop symbols_ index fuel ((m + 1) % 2 ^ 32) R
        else if s.get_index > index then
          get_symbol_loop symbols_ index fuel L ((m + 2 ^ 32 - 1) % 2 ^ 32)
        else some (lookup.found m)
    else some lookup.nullptr

/-- The method `get_symbol(uint32_t index) const`: `R` starts as `symbols_.size() - 1`, a
`size_t` narrowed to `uint32_t`. -/
def get_symbol (self : coffi_symbols) (fuel : Nat) (index : Nat) : Option lookup :=
  get_symbol_loop self.symbols_ index fuel 0
    ((self.symbols_.length + 2 ^ 64 - 1) % 2 ^ 64 % 2 ^ 32)

/-- The iterator loop of `get_symbol(const std::string&)`, at position `pos` with `rest`
still to visit. -/
def get_symbol_scan (string_to_name : List byte → String) (name : String) :
    List symbol → Nat → lookup
  | [], _ => lookup.nullptr
  | s :: rest, pos =>
    if s.get_name string_to_name = name then lookup.found pos
    else get_symbol_scan string_to_name name rest (pos + 1)

/-- The method `get_symbol(const std::string& name) const`. -/
def get_symbol_by_name (self : coffi_symbols) (string_to_name : List byte → String)
    (name : String) : lookup :=
  get_symbol_scan string_to_name name self.symbols_ 0

/-- The method `add_symbol(name)`: the table after the call and the position the returned
pointer designates. -/
def add_symbol (self : coffi_symbols) (name_to_string : String → List byte → List byte)
    (name : String) : coffi_symbols × Nat :=
  let index :=
    if 0 < self.symbols_.length then
      match self.symbols_.getLast? with
      | some last => (last.get_index + 1 + last.get_auxiliary_symbols.length) % 2 ^ 32
      | none => 0
    else 0
  let s := symbol_tmpl.ctor Record.big_symbol_record
  let s := s.set_index index
  let s := s.set_name name_to_string name
  let symbols_ := self.symbols_ ++ [s]
  ({ self with symbols_ := symbols_ }, symbols_.length - 1)

/-- The `for` loop of `load_symbols_impl<Symbol>`, entered with slot counter `i`. -/
def load_symbols_loop (R : Record) (count : Nat) :
    Nat → Nat → istream → List symbol → Option (Bool × istream × List symbol)
  | 0, _, _, _ => none
  | fuel + 1, i, stream, symbols_ =>
    if i < count then
      match (symbol_tmpl.ctor R).load stream with
      | (false, _, stream) => some (false, stream, symbols_)
      | (true, s, stream) =>
        let s := s.set_index i
        let i := (i + s.get_auxiliary_symbols.length) % 2 ^ 32
        load_symbols_loop R count fuel ((i + 1) % 2 ^ 32) stream
          (symbols_ ++ [s.widen_record])
    else some (true, stream, symbols_)

/-- The method `load_symbols_impl<Symbol>(stream, header)`. -/
def load_symbols_impl (R : Record) (self : coffi_symbols) (fuel : Nat) (stream : istream)
    (header : coff_header) : Option (Bool × istream × coffi_symbols) :=
  if header.symbol_table_offset = 0 then some (true, stream, self)
  else
    let stream := stream.seekg (header.symbol_table_offset : Int)
    match load_symbols_loop R header.symbols_count fuel 0 stream self.symbols_ with
    | none => none
    | some (ok, stream, symbols_) => some (ok, stream, { self with symbols_ := symbols_ })

/-- The method `load_symbols(stream, header)`. -/
def load_symbols (self : coffi_symbols) (fuel : Nat) (stream : istream)
    (header : coff_header) : Option (Bool × istream × coffi_symbols) :=
  let self := { self with is_bigobj := header.is_bigobj }
  if self.is_bigobj then
    load_symbols_impl Record.big_symbol_record self fuel stream header
  else
    load_symbols_impl Record.symbol_record self fuel stream header

/-- The method `save_symbols(stream)`. -/
def save_symbols (self : coffi_symbols) (stream : ostream) : ostream :=
  if self.is_bigobj then
    self.symbols_.foldl (fun stream s => (s.save stream).2) stream
  else
    self.symbols_.foldl (fun stream s => (s.narrow_record.save stream).2) stream

/-- The method `get_symbols_filesize()`: `filesize` is a `uint32_t`; each `+=` adds a
`size_t` product (64 bits) and narrows the sum back to 32 bits. -/
def get_symbols_filesize (self : coffi_symbols) : Nat :=
  self.symbols_.foldl
    (fun filesize s =>
      (filesize + Record.big_symbol_record.sizeof * (1 + s.get_auxiliary_symbols.length))
        % 2 ^ 64 % 2 ^ 32)
    0

end coffi_symbols

/-! ## Vocabulary of the properties -/

/-- The number of auxiliary records announced by the header that starts at the get
position: its `aux_symbols_number` byte, the last byte of the record in both layouts. -/
def declared_aux (R : Record) (stream : istream) : Nat :=
  byte_at (stream.buf.drop stream.gpos) (R.sizeof - 1)

/-- The auxiliary records held by the `n` slots that start at position `g` of a buffer: the
first `sizeof_auxiliary_symbol_record` bytes of each slot of width `R.sizeof`. -/
def slots_payload (R : Record) (buf : List byte) (g n : Nat) : List auxiliary_symbol_record :=
  (List.range n).map fun j =>
    { value := (buf.drop (g + R.sizeof * j)).take sizeof_auxiliary_symbol_record }

/-- Invariant I2: the slot indices are strictly ascending in collection order. -/
def ascending (l : List symbol) : Prop := l.Pairwise fun a b => a.index_ < b.index_

instance (l : List symbol) : Decidable (ascending l) := by
  unfold ascending; infer_instance

/-- A symbol with an all-zero header, no auxiliary record and slot index `i`. -/
def slot_symbol (i : Nat) : symbol := { header := header_record.zero, auxs := [], index_ := i }

/-- The table of `n` symbols without auxiliary records, at slot indices `0, 1, ..., n - 1`. -/
def dense_table (n : Nat) : coffi_symbols :=
  { symbols_ := (List.range n).map slot_symbol, is_bigobj := true }

/-- The number of raw slots a sequence of symbols occupies: one per symbol and one per
auxiliary record. -/
def total_slots (l : List symbol) : Nat := (l.map fun s => 1 + s.auxs.length).sum

/-- Slot accounting from slot `i` on: each symbol sits at the slot that follows the
previous symbol and its auxiliary records. -/
def slot_chain : Nat → List symbol → Prop
  | _, [] => True
  | i, s :: rest => s.index_ = i ∧ slot_chain (i + 1 + s.auxs.length) rest

instance slot_chain_decidable : (i : Nat) → (l : List symbol) → Decidable (slot_chain i l)
  | _, [] => isTrue trivial
  | i, s :: rest =>
    have := slot_chain_decidable (i + 1 + s.auxs.length) rest
    by unfold slot_chain; infer_instance

/-- Invariant I1 as the specification words it: the first symbol has slot index 0 and
`index[p+1] = index[p] + 1 + aux_count[p]` for every adjacent pair. -/
def index_invariant (l : List symbol) : Prop :=
  (∀ s, l.head? = some s → s.index_ = 0) ∧
  ∀ p a b, l[p]? = some a → l[p + 1]? = some b → b.index_ = a.index_ + 1 + a.auxs.length

/-- A narrow symbol table of `2 * N - 1` slots behind one leading byte: every byte is zero
except the `aux_symbols_number` byte of the header in slot `N - 2`, which announces one
auxiliary record. -/
def wrap_buf (N : Nat) : List byte :=
  List.replicate (18 * (N - 1)) 0 ++ [1] ++ List.replicate (18 * N) 0

/-- A good stream over `wrap_buf N`. -/
def wrap_stream (N : Nat) : istream :=
  { buf := wrap_buf N, gpos := 0, eofbit := false, failbit := false, seek_past_end := false }

/-- The header that goes with `wrap_stream N`: offset 1, `N - 1` slots, narrow format. -/
def wrap_header (N : Nat) : coff_header :=
  { symbol_table_offset := 1, symbols_count := N - 1, is_bigobj := false }

/-- The symbol read from slot `N - 2` of `wrap_stream N`. -/
def wrap_symbol (N : Nat) : symbol :=
  { header := { header_record.zero with aux_symbols_number := 1 },
    auxs := [{ value := List.replicate 18 0 }], index_ := N - 2 }

/-- The symbols read from `wrap_stream N`. -/
def wrap_table (N : Nat) : List symbol :=
  (List.range (N - 2)).map slot_symbol ++ [wrap_symbol N] ++
    (List.range (N - 1)).map slot_symbol

/-- A narrow symbol table of three slots behind one leading byte: a header that announces
one auxiliary record, the record, and an all-zero header. -/
def two_symbols : List byte :=
  [7] ++ (List.replicate 17 0 ++ [1]) ++ List.replicate 18 5 ++ List.replicate 18 0

/-- The bytes of one auxiliary slot as `save` writes it: the payload and the zero padding. -/
def slot_bytes (R : Record) (a : auxiliary_symbol_record) : List byte :=
  a.value ++ List.replicate (R.sizeof - sizeof_auxiliary_symbol_record) 0

/-- The bytes `save` writes for one symbol. -/
def save_bytes (R : Record) (s : symbol_tmpl R) : List byte :=
  R.to_bytes { s.header with aux_symbols_number := s.auxs.length % 2 ^ 8 } ++
    (s.auxs.map (slot_bytes R)).flatten

/-- The bytes `save_symbols` writes for a sequence of symbols, each converted by `conv` to the
layout it is saved in. -/
def table_bytes (R : Record) (conv : symbol → symbol_tmpl R) (l : List symbol) : List byte :=
  (l.map fun s => save_bytes R (conv s)).flatten

/-- The data model a table is saved from: every field holds a value of its C++ type, each
symbol has at most 255 auxiliary records, and the slot indices follow invariant I1 (the
first is 0, each next one is the previous plus 1 plus its number of auxiliary records). -/
def data_model (t : coffi_symbols) : Prop :=
  (∀ s ∈ t.symbols_, s.typed ∧ s.auxs.length ≤ 255) ∧ index_invariant t.symbols_

/-- The symbols a load yields from the bytes `save_symbols` wrote for `l` in the given
format: each symbol of `l` with its `aux_symbols_number` set to the number of its auxiliary
records and, in narrow format, its section number reduced modulo `2 ^ 16`. -/
def reloaded (is_bigobj : Bool) (l : List symbol) : List symbol :=
  l.map fun s =>
    { s with header := { s.header with
        section_number :=
          if is_bigobj then s.header.section_number else s.header.section_number % 2 ^ 16
        aux_symbols_number := s.auxs.length } }

/-- A wide table whose only symbol has one auxiliary record and a header count of 0. -/
def stale_count_table : coffi_symbols :=
  { symbols_ :=
      [{ header := header_record.zero, auxs := [{ value := List.replicate 18 5 }],
         index_ := 0 }],
    is_bigobj := true }

/-- A table of two symbols in narrow format: `main` at slot index 0, with one auxiliary
record and a section number above 16 bits, and an unnamed symbol at slot index 2. -/
def sample_table : coffi_symbols :=
  { symbols_ :=
      [{ header := { name := [109, 97, 105, 110, 0, 0, 0, 0], value := 16,
                     section_number := 65537, type := 32, storage_class := 2,
                     aux_symbols_number := 1 },
         auxs := [{ value := List.replicate 18 5 }], index_ := 0 },
       { header := { header_record.zero with section_number := 1 }, auxs := [],
         index_ := 2 }],
    is_bigobj := false }

/-- The record layout a table is saved in and loaded from, by its format flag. -/
def layout_of (is_bigobj : Bool) : Record :=
  if is_bigobj then Record.big_symbol_record else Record.symbol_record

/-- A wide symbol with 256 auxiliary records. -/
def many_aux_symbol : symbol :=
  { header := header_record.zero,
    auxs := List.replicate 256 { value := List.replicate 18 0 }, index_ := 0 }

/-- A wide symbol with one auxiliary record. -/
def one_aux_symbol : symbol :=
  { header := { header_record.zero with aux_symbols_number := 1 },
    auxs := [{ value := List.replicate 18 5 }], index_ := 0 }

/-- The header count of every symbol is the number of its auxiliary records. -/
def counts_match (l : List symbol) : Prop :=
  ∀ s ∈ l, s.auxs.length = s.header.aux_symbols_number

/-- The tables produced from a newly constructed one by calls of `load_symbols` (whatever
they return) and of `add_symbol`. -/
inductive produced : coffi_symbols → Prop where
  | ctor : produced coffi_symbols.ctor
  | load_symbols (t : coffi_symbols) (fuel : Nat) (stream : istream) (header : coff_header)
      (ok : Bool) (st : istream) (t1 : coffi_symbols) :
      produced t → t.load_symbols fuel stream header = some (ok, st, t1) → produced t1
  | add_symbol (t : coffi_symbols) (name_to_string : String → List byte → List byte)
      (name : String) : produced t → produced (t.add_symbol name_to_string name).1

/-- A narrow symbol with the largest 16-bit section number and one auxiliary record. -/
def narrow_sample : narrow_symbol :=
  { header := { name := [109, 97, 105, 110, 0, 0, 0, 0], value := 16,
                section_number := 65535, type := 32, storage_class := 2,
                aux_symbols_number := 1 },
    auxs := [{ value := List.replicate 18 5 }], index_ := 4 }

/-! ## Properties

### Streams -/

theorem istream.good_iff (s : istream) :
    s.good = true ↔ s.eofbit = false ∧ s.failbit = false := by
  cases s; simp [istream.good]

theorem istream.read_full (s : istream) (n : Nat) (hg : s.good = true)
    (hn : s.gpos + n ≤ s.buf.length) :
    s.read n = ((s.buf.drop s.gpos).take n, { s with gpos := s.gpos + n }) := by
  have hl : ((s.buf.drop s.gpos).take n).length = n := by
    simp only [List.length_take, List.length_drop]; omega
  simp [istream.read, hg, hl]

theorem istream.tellg_good (s : istream) (hg : s.good = true) :
    s.tellg = ((s.gpos : Int), s) := by
  simp [istream.tellg, hg]

theorem istream.seekg_good (s : istream) (p : Nat) (hg : s.good = true)
    (hp : p ≤ s.buf.length ∨ s.seek_past_end = true) :
    s.seekg (p : Int) = { s with gpos := p } := by
  obtain ⟨he, hf⟩ := (istream.good_iff s).mp hg
  cases s
  simp only at he hf hp
  subst he hf
  simp only [istream.seekg]
  have : (0 : Int) ≤ (p : Int) := Int.ofNat_nonneg p
  rcases hp with hp | hp
  · simp [hp, this]
  · simp [hp, this]

theorem Record.sizeof_eq (R : Record) : R.sizeof = 18 ∨ R.sizeof = 20 := by
  cases R <;> simp [Record.sizeof]

/-! ### Loading one symbol -/

namespace symbol_tmpl

/-- One pass of the auxiliary loop over a slot whose payload is in the buffer and whose end
the stream buffer accepts as a position. -/
theorem load_auxs_succ (R : Record) (n : Nat) (self : symbol_tmpl R) (stream : istream)
    (hg : stream.good = true)
    (hpay : stream.gpos + sizeof_auxiliary_symbol_record ≤ stream.buf.length)
    (hend : stream.gpos + R.sizeof ≤ stream.buf.length ∨ stream.seek_past_end = true) :
    load_auxs R (R.sizeof - sizeof_auxiliary_symbol_record) (n + 1) self stream =
      load_auxs R (R.sizeof - sizeof_auxiliary_symbol_record) n
        { self with auxs := self.auxs ++
            [{ value := (stream.buf.drop stream.gpos).take sizeof_auxiliary_symbol_record }] }
        { stream with gpos := stream.gpos + R.sizeof } := by
  have hW : sizeof_auxiliary_symbol_record ≤ R.sizeof := by
    rcases Record.sizeof_eq R with h | h <;> simp [h, sizeof_auxiliary_symbol_record]
  rw [load_auxs]
  simp only [istream.tellg_good stream hg,
    istream.read_full stream sizeof_auxiliary_symbol_record hg hpay]
  have hg2 : ({ stream with gpos := stream.gpos + sizeof_auxiliary_symbol_record } :
      istream).good = true := by
    simpa [istream.good] using hg
  simp only [istream.tellg_good _ hg2]
  have hcast : ((stream.gpos + sizeof_auxiliary_symbol_record : Nat) : Int) +
      ((R.sizeof - sizeof_auxiliary_symbol_record : Nat) : Int) =
      ((stream.gpos + R.sizeof : Nat) : Int) := by
    omega
  rw [hcast, istream.seekg_good _ _ hg2 (by simpa using hend)]
  have hg3 : ({ stream with gpos := stream.gpos + R.sizeof } : istream).good = true := by
    simpa [istream.good] using hg
  simp only [istream.tellg_good _ hg3]
  have : ¬ (((stream.gpos + R.sizeof : Nat) : Int) - (stream.gpos : Int) ≠ (R.sizeof : Int)) := by
    omega
  simp only [this, if_false]

theorem slots_payload_succ (R : Record) (buf : List byte) (g n : Nat) :
    slots_payload R buf g (n + 1) =
      { value := (buf.drop g).take sizeof_auxiliary_symbol_record } ::
        slots_payload R buf (g + R.sizeof) n := by
  simp only [slots_payload, List.range_succ_eq_map, List.map_cons, List.map_map]
  congr 1
  simp only [List.map_inj_left, Function.comp, Nat.succ_eq_add_one]
  intro j _
  have : g + R.sizeof * (j + 1) = g + R.sizeof + R.sizeof * j := by ring
  rw [this]

theorem slots_payload_length (R : Record) (buf : List byte) (g n : Nat) :
    (slots_payload R buf g n).length = n := by
  simp [slots_payload]

/-- The auxiliary loop over `n` slots that lie inside the buffer. -/
theorem load_auxs_ok (R : Record) :
    ∀ (n : Nat) (self : symbol_tmpl R) (stream : istream), stream.good = true →
      stream.gpos + R.sizeof * n ≤ stream.buf.length →
      load_auxs R (R.sizeof - sizeof_auxiliary_symbol_record) n self stream =
        (true, { self with auxs := self.auxs ++ slots_payload R stream.buf stream.gpos n },
          { stream with gpos := stream.gpos + R.sizeof * n }) := by
  intro n
  induction n with
  | zero => intro self stream _ _; simp [load_auxs, slots_payload]
  | succ n ih =>
    intro self stream hg hlen
    have hW : sizeof_auxiliary_symbol_record ≤ R.sizeof := by
      rcases Record.sizeof_eq R with h | h <;> simp [h, sizeof_auxiliary_symbol_record]
    have hmul : R.sizeof * (n + 1) = R.sizeof * n + R.sizeof := by ring
    have h1 : stream.gpos + R.sizeof ≤ stream.buf.length := by omega
    rw [load_auxs_succ R n self stream hg (by omega) (Or.inl h1)]
    have hg3 : ({ stream with gpos := stream.gpos + R.sizeof } : istream).good = true := by
      simpa [istream.good] using hg
    rw [ih _ _ hg3 (by simp only; omega)]
    simp only [slots_payload_succ, List.append_assoc, List.singleton_append]
    have : stream.gpos + R.sizeof + R.sizeof * n = stream.gpos + R.sizeof * (n + 1) := by ring
    rw [this]

theorem to_bytes_length (R : Record) (h : header_record) (hn : h.name.length = 8) :
    (R.to_bytes h).length = R.sizeof := by
  cases R <;> simp [Record.to_bytes, Record.sizeof, le16, le32, hn]

theorem stored_full (old got : List byte) (h : old.length ≤ got.length) :
    stored old got = got := by
  simp [stored, List.drop_eq_nil_of_le h]

theorem of_bytes_aux (R : Record) (bs : List byte) :
    (R.of_bytes bs).aux_symbols_number = byte_at bs (R.sizeof - 1) := by
  cases R <;> rfl

theorem byte_at_take (bs : List byte) (n o : Nat) (h : o < n) :
    byte_at (bs.take n) o = byte_at bs o := by
  simp [byte_at, List.getD_eq_getElem?_getD, List.getElem?_take, h]

theorem available_good (stream : istream) (n : Nat) (hn : 0 < n)
    (h : n ≤ stream.available) :
    stream.good = true ∧ stream.gpos + n ≤ stream.buf.length := by
  unfold istream.available at h
  by_cases hg : stream.good = true
  · simp only [hg, if_true] at h
    exact ⟨hg, by omega⟩
  · simp only [hg] at h
    simp at h
    omega

/-- A load from a stream that holds the header and every announced slot. -/
theorem load_full (R : Record) (stream : istream)
    (h : R.sizeof * (1 + declared_aux R stream) ≤ stream.available) :
    (symbol_tmpl.ctor R).load stream =
      (true,
        { header := R.of_bytes ((stream.buf.drop stream.gpos).take R.sizeof)
          auxs := slots_payload R stream.buf (stream.gpos + R.sizeof) (declared_aux R stream)
          index_ := 0 },
        { stream with gpos := stream.gpos + R.sizeof * (1 + declared_aux R stream) }) := by
  have hWpos : 0 < R.sizeof := by rcases Record.sizeof_eq R with h | h <;> omega
  obtain ⟨hg, hav⟩ := available_good stream _ (Nat.mul_pos hWpos (by omega)) h
  have hmul : R.sizeof * (1 + declared_aux R stream) =
      R.sizeof + R.sizeof * declared_aux R stream := by ring
  have hW : stream.gpos + R.sizeof ≤ stream.buf.length := by omega
  have hgot : ((stream.buf.drop stream.gpos).take R.sizeof).length = R.sizeof := by
    simp only [List.length_take, List.length_drop]; omega
  have hz : (R.to_bytes (symbol_tmpl.ctor R).header).length = R.sizeof :=
    to_bytes_length R _ (by simp [symbol_tmpl.ctor, header_record.zero])
  simp only [load, istream.read_full stream R.sizeof hg hW, hgot, ne_eq, not_true_eq_false,
    if_false]
  rw [stored_full _ _ (by rw [hz, hgot])]
  simp only [get_aux_symbols_number, of_bytes_aux]
  rw [byte_at_take _ _ _ (by omega)]
  have hg3 : ({ stream with gpos := stream.gpos + R.sizeof } : istream).good = true := by
    simpa [istream.good] using hg
  have := load_auxs_ok R (declared_aux R stream)
    { symbol_tmpl.ctor R with
      header := R.of_bytes ((stream.buf.drop stream.gpos).take R.sizeof) }
    { stream with gpos := stream.gpos + R.sizeof } hg3 (by simp only; omega)
  simp only [declared_aux] at this ⊢
  rw [this]
  simp only [symbol_tmpl.ctor, List.nil_append, Nat.add_assoc]
  rw [Nat.mul_add, Nat.mul_one]

end symbol_tmpl

/-! ### Lookup by slot index -/

theorem ascending_lt {l : List symbol} (h : ascending l) {p q : Nat} {a b : symbol}
    (hp : l[p]? = some a) (hq : l[q]? = some b) (hpq : p < q) : a.index_ < b.index_ := by
  unfold ascending at h
  rw [List.pairwise_iff_getElem] at h
  obtain ⟨hp1, hp2⟩ := List.getElem?_eq_some_iff.mp hp
  obtain ⟨hq1, hq2⟩ := List.getElem?_eq_some_iff.mp hq
  have := h p q hp1 hq1 hpq
  rwa [hp2, hq2] at this

theorem ascending_le {l : List symbol} (h : ascending l) {p q : Nat} {a b : symbol}
    (hp : l[p]? = some a) (hq : l[q]? = some b) (hpq : p ≤ q) : a.index_ ≤ b.index_ := by
  rcases Nat.lt_or_eq_of_le hpq with h1 | h1
  · exact Nat.le_of_lt (ascending_lt h hp hq h1)
  · subst h1
    rw [hp] at hq
    injection hq with hq
    rw [hq]

/-- The search loop closes in on the position of a stored symbol while `L + R` stays below
`2 ^ 32`. -/
theorem get_symbol_loop_found (l : List symbol) (hasc : ascending l)
    (hlen : l.length ≤ 2 ^ 31) (p : Nat) (s : symbol) (hp : l[p]? = some s) :
    ∀ (fuel L R : Nat), L ≤ p → p ≤ R → R < l.length → R - L < fuel →
      coffi_symbols.get_symbol_loop l s.index_ fuel L R = some (lookup.found p) := by
  intro fuel
  induction fuel with
  | zero => intro L R _ _ _ h; omega
  | succ fuel ih =>
    intro L R hL hR hRl hf
    have hLR : L ≤ R := by omega
    have hm : (L + R) % 2 ^ 32 / 2 = (L + R) / 2 := by
      rw [Nat.mod_eq_of_lt (by omega)]
    have hml : (L + R) / 2 < l.length := by omega
    obtain ⟨sm, hsm⟩ : ∃ sm, l[(L + R) / 2]? = some sm :=
      ⟨l[(L + R) / 2], List.getElem?_eq_getElem hml⟩
    rw [coffi_symbols.get_symbol_loop]
    simp only [hLR, if_true, hm, hsm, symbol_tmpl.get_index]
    by_cases h1 : sm.index_ < s.index_
    · have hmp : (L + R) / 2 < p := by
        by_contra hc
        have := ascending_le hasc hp hsm (by omega)
        omega
      simp only [h1, if_true]
      rw [Nat.mod_eq_of_lt (by omega)]
      exact ih _ _ (by omega) hR hRl (by omega)
    · by_cases h2 : sm.index_ > s.index_
      · have hmp : p < (L + R) / 2 := by
          by_contra hc
          have := ascending_le hasc hsm hp (by omega)
          omega
        simp only [h1, h2, if_true, if_false]
        have : ((L + R) / 2 + 2 ^ 32 - 1) % 2 ^ 32 = (L + R) / 2 - 1 := by omega
        rw [this]
        exact ih _ _ hL (by omega) (by omega) (by omega)
      · simp only [h1, h2, if_false]
        have hmp : (L + R) / 2 = p := by
          rcases Nat.lt_trichotomy ((L + R) / 2) p with h | h | h
          · have := ascending_lt hasc hsm hp h; omega
          · exact h
          · have := ascending_lt hasc hp hsm h; omega
        rw [hmp]

/-- The search loop empties the interval when no stored symbol has the index; position 0
holds slot index 0, so `R = m - 1` is never computed at `m = 0`. -/
theorem get_symbol_loop_absent (l : List symbol) (hasc : ascending l)
    (hlen : l.length ≤ 2 ^ 31) (index : Nat) (habs : ∀ s ∈ l, s.index_ ≠ index)
    (h0 : ∀ s, l[0]? = some s → s.index_ = 0) :
    ∀ (fuel L R : Nat),
      (∀ q s, q < L → l[q]? = some s → s.index_ < index) →
      (∀ q s, R < q → l[q]? = some s → index < s.index_) →
      L ≤ R + 1 → R < l.length → R + 1 - L < fuel →
      coffi_symbols.get_symbol_loop l index fuel L R = some lookup.nullptr := by
  intro fuel
  induction fuel with
  | zero => intro L R _ _ _ _ h; omega
  | succ fuel ih =>
    intro L R hlo hhi hLR1 hRl hf
    rw [coffi_symbols.get_symbol_loop]
    by_cases hLR : L ≤ R
    · have hm : (L + R) % 2 ^ 32 / 2 = (L + R) / 2 := by
        rw [Nat.mod_eq_of_lt (by omega)]
      have hml : (L + R) / 2 < l.length := by omega
      obtain ⟨sm, hsm⟩ : ∃ sm, l[(L + R) / 2]? = some sm :=
        ⟨l[(L + R) / 2], List.getElem?_eq_getElem hml⟩
      have hmem : sm ∈ l := List.getElem?_mem hsm
      simp only [hLR, if_true, hm, hsm, symbol_tmpl.get_index]
      by_cases h1 : sm.index_ < index
      · simp only [h1, if_true]
        rw [Nat.mod_eq_of_lt (by omega)]
        refine ih _ _ ?_ hhi (by omega) hRl (by omega)
        intro q s hq hqs
        have := ascending_le hasc hqs hsm (by omega)
        omega
      · have h2 : sm.index_ > index := by
          have := habs sm hmem
          omega
        simp only [h1, h2, if_true, if_false]
        have hmpos : 0 < (L + R) / 2 := by
          by_contra hc
          have hz : (L + R) / 2 = 0 := by omega
          rw [hz] at hsm
          have := h0 sm hsm
          omega
        have : ((L + R) / 2 + 2 ^ 32 - 1) % 2 ^ 32 = (L + R) / 2 - 1 := by omega
        rw [this]
        refine ih _ _ hlo ?_ (by omega) (by omega) (by omega)
        intro q s hq hqs
        have := ascending_le hasc hsm hqs (by omega)
        omega
    · simp only [hLR, if_false]

theorem dense_getElem (n m : Nat) (h : m < n) :
    (dense_table n).symbols_[m]? = some (slot_symbol m) := by
  simp [dense_table, List.getElem?_map, List.getElem?_range h]

theorem dense_ascending (n : Nat) : ascending (dense_table n).symbols_ := by
  unfold ascending dense_table
  rw [List.pairwise_map]
  exact List.pairwise_lt_range n

theorem dense_length (n : Nat) : (dense_table n).symbols_.length = n := by
  simp [dense_table]

theorem dense_index_lt (n : Nat) : ∀ s ∈ (dense_table n).symbols_, s.index_ < n := by
  intro s hs
  simp only [dense_table, List.mem_map, List.mem_range] at hs
  obtain ⟨i, hi, rfl⟩ := hs
  exact hi

/-- On a table that holds slot index `m` at every position `m < R`, with `R = 2 ^ 31`, a
search between `L` and `R` for an index at or above `R` keeps `L ≤ R` forever: the
midpoint, computed modulo `2 ^ 32`, never reaches position `R`. -/
theorem get_symbol_loop_diverges (tbl : List symbol) (index R : Nat) (hR : R = 2 ^ 31)
    (hi : R ≤ index) (htbl : ∀ m, m < R → tbl[m]? = some (slot_symbol m)) :
    ∀ (fuel L : Nat), L ≤ R → coffi_symbols.get_symbol_loop tbl index fuel L R = none := by
  intro fuel
  induction fuel with
  | zero => intro L _; rw [coffi_symbols.get_symbol_loop]
  | succ fuel ih =>
    intro L hL
    have hm : (L + R) % 2 ^ 32 / 2 < R := by omega
    have hg := htbl _ hm
    rw [coffi_symbols.get_symbol_loop]
    simp only [hL, if_true, hg, symbol_tmpl.get_index, slot_symbol]
    have h1 : (L + R) % 2 ^ 32 / 2 < index := by omega
    simp only [h1, if_true]
    have h2 : ((L + R) % 2 ^ 32 / 2 + 1) % 2 ^ 32 = (L + R) % 2 ^ 32 / 2 + 1 := by
      omega
    rw [h2]
    exact ih _ (by omega)

theorem dense_get_symbol_none (index : Nat) (hi : 2 ^ 31 ≤ index) (fuel : Nat) :
    (dense_table (2 ^ 31 + 1)).get_symbol fuel index = none := by
  unfold coffi_symbols.get_symbol
  rw [dense_length]
  have : (2 ^ 31 + 1 + 2 ^ 64 - 1) % 2 ^ 64 % 2 ^ 32 = 2 ^ 31 := by norm_num
  rw [this]
  exact get_symbol_loop_diverges _ index _ rfl hi (fun m hm => dense_getElem _ m (by omega))
    fuel 0 (by omega)

/-- C3 (as amended): in a table of at most `2 ^ 31` symbols whose slot indices are strictly
ascending, the lookup of the slot index of the symbol stored at position `p` returns the
pointer to position `p`, with any fuel of at least the number of symbols. -/
theorem get_symbol_finds_present (t : coffi_symbols) (hasc : ascending t.symbols_)
    (hlen : t.symbols_.length ≤ 2 ^ 31) (p : Nat) (s : symbol)
    (hp : t.symbols_[p]? = some s) (fuel : Nat) (hf : t.symbols_.length ≤ fuel) :
    t.get_symbol fuel s.index_ = some (lookup.found p) := by
  have hpl : p < t.symbols_.length := (List.getElem?_eq_some_iff.mp hp).1
  unfold coffi_symbols.get_symbol
  have hR : (t.symbols_.length + 2 ^ 64 - 1) % 2 ^ 64 % 2 ^ 32 = t.symbols_.length - 1 := by
    omega
  rw [hR]
  exact get_symbol_loop_found t.symbols_ hasc hlen p s hp fuel 0 _ (by omega) (by omega)
    (by omega) (by omega)

/-- Witness of C3: a table with slot indices 0, 2, 3 and the lookup of slot index 2. -/
theorem get_symbol_finds_present_witness :
    ascending [slot_symbol 0, slot_symbol 2, slot_symbol 3] ∧
    [slot_symbol 0, slot_symbol 2, slot_symbol 3].length ≤ 2 ^ 31 ∧
    (⟨[slot_symbol 0, slot_symbol 2, slot_symbol 3], true⟩ : coffi_symbols).get_symbol 3
      (slot_symbol 2).index_ = some (lookup.found 1) :=
  ⟨by decide, by decide,
    get_symbol_finds_present ⟨[slot_symbol 0, slot_symbol 2, slot_symbol 3], true⟩
      (by decide) (by decide) 1 (slot_symbol 2) rfl 3 (by decide)⟩

/-- Counterexample to C3 as stated: the table of `2 ^ 31 + 1` symbols at slot indices
`0 .. 2 ^ 31` is strictly ascending and stores slot index `2 ^ 31` at position `2 ^ 31`, yet
the lookup of that index returns nothing, whatever the fuel: `L + R` wraps at `2 ^ 32`. -/
theorem get_symbol_present_large_table_diverges :
    ascending (dense_table (2 ^ 31 + 1)).symbols_ ∧
    (dense_table (2 ^ 31 + 1)).symbols_[2 ^ 31]? = some (slot_symbol (2 ^ 31)) ∧
    ∀ fuel, (dense_table (2 ^ 31 + 1)).get_symbol fuel (slot_symbol (2 ^ 31)).index_ = none :=
  ⟨dense_ascending _, dense_getElem _ _ (by omega),
    fun fuel => dense_get_symbol_none _ (Nat.le_refl _) fuel⟩

/-- C4 (as amended): in a table of at most `2 ^ 31` symbols with strictly ascending slot
indices whose first symbol has slot index 0, the lookup of an index that no stored symbol
has returns `nullptr`, with any fuel above the number of symbols. -/
theorem get_symbol_rejects_absent (t : coffi_symbols) (hasc : ascending t.symbols_)
    (h0 : t.symbols_.head?.map symbol_tmpl.get_index = some 0)
    (hlen : t.symbols_.length ≤ 2 ^ 31) (index : Nat)
    (habs : ∀ s ∈ t.symbols_, s.index_ ≠ index) (fuel : Nat)
    (hf : t.symbols_.length < fuel) :
    t.get_symbol fuel index = some lookup.nullptr := by
  have hne : 0 < t.symbols_.length := by
    cases h : t.symbols_ with
    | nil => simp [h] at h0
    | cons a l => simp
  have hfirst : ∀ s, t.symbols_[0]? = some s → s.index_ = 0 := by
    intro s hs
    cases h : t.symbols_ with
    | nil => simp [h] at h0
    | cons a l =>
      simp only [h, List.head?_cons, Option.map_some', Option.some.injEq,
        symbol_tmpl.get_index] at h0
      simp only [h, List.getElem?_cons_zero, Option.some.injEq] at hs
      rw [← hs]; exact h0
  unfold coffi_symbols.get_symbol
  have hR : (t.symbols_.length + 2 ^ 64 - 1) % 2 ^ 64 % 2 ^ 32 = t.symbols_.length - 1 := by
    omega
  rw [hR]
  refine get_symbol_loop_absent t.symbols_ hasc hlen index habs hfirst fuel 0 _ ?_ ?_
    (by omega) (by omega) (by omega)
  · intro q s hq; omega
  · intro q s hq hqs
    have := (List.getElem?_eq_some_iff.mp hqs).1
    omega

/-- Witness of C4: a table with slot indices 0, 2, 3 (slot 1 holds an auxiliary record) and
the lookup of index 1. -/
theorem get_symbol_rejects_absent_witness :
    ascending [slot_symbol 0, slot_symbol 2, slot_symbol 3] ∧
    (∀ s ∈ [slot_symbol 0, slot_symbol 2, slot_symbol 3], s.index_ ≠ 1) ∧
    (⟨[slot_symbol 0, slot_symbol 2, slot_symbol 3], true⟩ : coffi_symbols).get_symbol 4 1 =
      some lookup.nullptr :=
  ⟨by decide, by decide,
    get_symbol_rejects_absent ⟨[slot_symbol 0, slot_symbol 2, slot_symbol 3], true⟩
      (by decide) (by decide) (by decide) 1 (by decide) 4 (by decide)⟩

/-- Counterexample to C4 as stated: the table of `2 ^ 31 + 1` symbols at slot indices
`0 .. 2 ^ 31` is non-empty, strictly ascending, starts at slot index 0 and has no symbol at
index `2 ^ 31 + 1`, yet the lookup of that index never answers `nullptr`: it returns
nothing, whatever the fuel. -/
theorem get_symbol_absent_large_table_diverges :
    ascending (dense_table (2 ^ 31 + 1)).symbols_ ∧
    (dense_table (2 ^ 31 + 1)).symbols_[0]? = some (slot_symbol 0) ∧
    (∀ s ∈ (dense_table (2 ^ 31 + 1)).symbols_, s.index_ ≠ 2 ^ 31 + 1) ∧
    ∀ fuel, (dense_table (2 ^ 31 + 1)).get_symbol fuel (2 ^ 31 + 1) = none :=
  ⟨dense_ascending _, dense_getElem _ _ (by omega),
    fun s hs => Nat.ne_of_lt (dense_index_lt _ s hs),
    fun fuel => dense_get_symbol_none _ (by omega) fuel⟩

/-- C5 (code defect): on a table without symbols the first pass of the search loop already
evaluates `symbols_[2147483647]`, outside the empty vector; the lookup does not return
`nullptr`. `R` starts as `symbols_.size() - 1`, which is `2 ^ 32 - 1` for size 0. -/
theorem get_symbol_empty_table_out_of_bounds (is_bigobj : Bool) (fuel index : Nat) :
    ({ symbols_ := [], is_bigobj := is_bigobj } : coffi_symbols).get_symbol (fuel + 1) index =
      some (lookup.out_of_bounds 2147483647) := by
  simp [coffi_symbols.get_symbol, coffi_symbols.get_symbol_loop]

/-! ### Appending a symbol -/

/-- C6 (as amended): `add_symbol(name)` appends exactly one symbol and keeps the stored ones
in place; the new symbol has a zero header apart from the name the provider encodes, no
auxiliary record, and slot index 0 in an empty table, otherwise the last symbol's index
plus 1 plus its number of auxiliary records, reduced modulo `2 ^ 32` (the sum itself
whenever it is below `2 ^ 32`). The returned pointer designates the appended symbol. -/
theorem add_symbol_postcondition (t : coffi_symbols)
    (name_to_string : String → List byte → List byte) (name : String) :
    (∃ s : symbol,
      (t.add_symbol name_to_string name).1.symbols_ = t.symbols_ ++ [s] ∧
      s.header = { name := name_to_string name (List.replicate 8 0), value := 0,
                   section_number := 0, type := 0, storage_class := 0,
                   aux_symbols_number := 0 } ∧
      s.auxs = [] ∧
      (t.symbols_ = [] → s.index_ = 0) ∧
      (∀ last, t.symbols_.getLast? = some last →
        s.index_ = (last.index_ + 1 + last.auxs.length) % 2 ^ 32 ∧
        (last.index_ + 1 + last.auxs.length < 2 ^ 32 →
          s.index_ = last.index_ + 1 + last.auxs.length))) ∧
    (t.add_symbol name_to_string name).1.is_bigobj = t.is_bigobj ∧
    (t.add_symbol name_to_string name).2 = t.symbols_.length := by
  refine ⟨?_, rfl, by simp [coffi_symbols.add_symbol]⟩
  cases h : t.symbols_.getLast? with
  | none =>
    have h0 : t.symbols_ = [] := by simpa using h
    refine ⟨_, rfl, ?_, ?_, ?_, ?_⟩
    · simp [symbol_tmpl.ctor, symbol_tmpl.set_index, symbol_tmpl.set_name, header_record.zero]
    · simp [symbol_tmpl.ctor, symbol_tmpl.set_index, symbol_tmpl.set_name]
    · intro _
      simp [h0, symbol_tmpl.ctor, symbol_tmpl.set_index, symbol_tmpl.set_name]
    · intro last hl; simp at hl
  | some last =>
    have hne : t.symbols_ ≠ [] := by
      intro h0; simp [h0] at h
    have hlen : 0 < t.symbols_.length := List.length_pos.mpr hne
    refine ⟨_, rfl, ?_, ?_, ?_, ?_⟩
    · simp [symbol_tmpl.ctor, symbol_tmpl.set_index, symbol_tmpl.set_name, header_record.zero]
    · simp [symbol_tmpl.ctor, symbol_tmpl.set_index, symbol_tmpl.set_name]
    · intro h0; exact absurd h0 hne
    · intro last2 hl
      injection hl with hl
      subst hl
      have hidx : (((symbol_tmpl.ctor Record.big_symbol_record).set_index
          (if 0 < t.symbols_.length then
            match t.symbols_.getLast? with
            | some last => (last.get_index + 1 + last.get_auxiliary_symbols.length) % 2 ^ 32
            | none => 0
          else 0)).set_name name_to_string name).index_ =
          (last.index_ + 1 + last.auxs.length) % 2 ^ 32 := by
        simp [h, hlen, symbol_tmpl.ctor, symbol_tmpl.set_index, symbol_tmpl.set_name,
          symbol_tmpl.get_index, symbol_tmpl.get_auxiliary_symbols]
      refine ⟨hidx, fun hlt => ?_⟩
      rw [hidx, Nat.mod_eq_of_lt hlt]

/-- Counterexample to C6 as stated: after a last symbol at slot index `2 ^ 32 - 1` without
auxiliary records the new symbol gets slot index 0, not `2 ^ 32`. -/
theorem add_symbol_index_wraps :
    ∃ s, ((⟨[⟨header_record.zero, [], 4294967295⟩], true⟩ : coffi_symbols).add_symbol
        (fun _ n => n) "x").1.symbols_ =
          [⟨header_record.zero, [], 4294967295⟩, s] ∧ s.index_ = 0 ∧
        s.index_ ≠ 4294967295 + 1 + 0 := by
  refine ⟨_, rfl, ?_, ?_⟩ <;> decide

/-! ### Lookup by name -/

theorem get_symbol_scan_spec (stn : List byte → String) (name : String) (l : List symbol) :
    ∀ base : Nat,
      (∀ p, coffi_symbols.get_symbol_scan stn name l base = lookup.found p ↔
        ∃ q s, p = base + q ∧ l[q]? = some s ∧ s.get_name stn = name ∧
          ∀ j t, j < q → l[j]? = some t → t.get_name stn ≠ name) ∧
      (coffi_symbols.get_symbol_scan stn name l base = lookup.nullptr ↔
        ∀ s ∈ l, s.get_name stn ≠ name) ∧
      (∀ p, coffi_symbols.get_symbol_scan stn name l base ≠ lookup.out_of_bounds p) := by
  induction l with
  | nil => intro base; simp [coffi_symbols.get_symbol_scan]
  | cons a rest ih =>
    intro base
    by_cases ha : a.get_name stn = name
    · simp only [coffi_symbols.get_symbol_scan, if_pos ha]
      refine ⟨?_, ?_, ?_⟩
      · intro p
        constructor
        · intro h
          injection h with h
          exact ⟨0, a, by omega, by simp, ha, by intro j t hj; omega⟩
        · rintro ⟨q, s, hp, hq, hs, hmin⟩
          cases q with
          | zero => simp [hp]
          | succ q => exact absurd ha (hmin 0 a (by omega) (by simp))
      · simp [ha]
      · intro p; simp
    · simp only [coffi_symbols.get_symbol_scan, if_neg ha]
      obtain ⟨ih1, ih2, ih3⟩ := ih (base + 1)
      refine ⟨?_, ?_, ih3⟩
      · intro p
        rw [ih1 p]
        constructor
        · rintro ⟨q, s, hp, hq, hs, hmin⟩
          refine ⟨q + 1, s, by omega, by simpa using hq, hs, ?_⟩
          intro j t hj hjt
          cases j with
          | zero => simp at hjt; subst hjt; exact ha
          | succ j => exact hmin j t (by omega) (by simpa using hjt)
        · rintro ⟨q, s, hp, hq, hs, hmin⟩
          cases q with
          | zero => simp at hq; subst hq; exact absurd hs ha
          | succ q =>
            refine ⟨q, s, by omega, by simpa using hq, hs, ?_⟩
            intro j t hj hjt
            exact hmin (j + 1) t (by omega) (by simpa using hjt)
      · rw [ih2]; simp [ha]

/-- C7: for every table, name-resolution function and query, the lookup by name returns the
pointer to position `p` exactly when `p` is the smallest position whose symbol resolves to
the query, and returns `nullptr` exactly when no stored symbol resolves to the query; it
never reads outside the collection. -/
theorem get_symbol_by_name_first_match (t : coffi_symbols)
    (string_to_name : List byte → String) (name : String) :
    (∀ p, t.get_symbol_by_name string_to_name name = lookup.found p ↔
      (∃ s, t.symbols_[p]? = some s ∧ s.get_name string_to_name = name) ∧
        ∀ j s, j < p → t.symbols_[j]? = some s → s.get_name string_to_name ≠ name) ∧
    (t.get_symbol_by_name string_to_name name = lookup.nullptr ↔
      ∀ s ∈ t.symbols_, s.get_name string_to_name ≠ name) ∧
    (∀ p, t.get_symbol_by_name string_to_name name ≠ lookup.out_of_bounds p) := by
  obtain ⟨h1, h2, h3⟩ := get_symbol_scan_spec string_to_name name t.symbols_ 0
  refine ⟨?_, h2, h3⟩
  intro p
  unfold coffi_symbols.get_symbol_by_name
  rw [h1 p]
  constructor
  · rintro ⟨q, s, hp, hq, hs, hmin⟩
    have : p = q := by omega
    subst this
    exact ⟨⟨s, hq, hs⟩, hmin⟩
  · rintro ⟨⟨s, hq, hs⟩, hmin⟩
    exact ⟨p, s, by omega, hq, hs, hmin⟩

/-! ### Truncated auxiliary slots -/

namespace symbol_tmpl

/-- A pass of the auxiliary loop whose payload read comes up short ends the load. -/
theorem load_auxs_short_payload (R : Record) (n : Nat) (self : symbol_tmpl R)
    (stream : istream) (hg : stream.good = true)
    (hshort : stream.buf.length - stream.gpos < sizeof_auxiliary_symbol_record) :
    (load_auxs R (R.sizeof - sizeof_auxiliary_symbol_record) (n + 1) self stream).1 = false := by
  have hl : ((stream.buf.drop stream.gpos).take sizeof_auxiliary_symbol_record).length <
      sizeof_auxiliary_symbol_record := by
    simp only [List.length_take, List.length_drop]; omega
  have hW : 0 < R.sizeof := by rcases Record.sizeof_eq R with h | h <;> omega
  rw [load_auxs]
  simp only [istream.tellg_good stream hg, istream.read, hg, if_true, hl]
  simp only [istream.tellg, istream.good, Bool.not_true, Bool.and_false, Bool.false_eq_true,
    if_false, istream.seekg, if_true]
  have : (-1 : Int) - (stream.gpos : Int) ≠ (R.sizeof : Int) := by omega
  simp [this]

/-- A pass of the auxiliary loop whose payload is in the buffer but whose slot end the
stream buffer rejects as a position ends the load. -/
theorem load_auxs_rejected_seek (R : Record) (n : Nat) (self : symbol_tmpl R)
    (stream : istream) (hg : stream.good = true)
    (hpay : stream.gpos + sizeof_auxiliary_symbol_record ≤ stream.buf.length)
    (hend : stream.buf.length < stream.gpos + R.sizeof) (hkind : stream.seek_past_end = false) :
    (load_auxs R (R.sizeof - sizeof_auxiliary_symbol_record) (n + 1) self stream).1 = false := by
  have hWA : sizeof_auxiliary_symbol_record ≤ R.sizeof := by
    rcases Record.sizeof_eq R with h | h <;> simp [h, sizeof_auxiliary_symbol_record]
  obtain ⟨he, hf⟩ := (istream.good_iff stream).mp hg
  rw [load_auxs]
  simp only [istream.tellg_good stream hg,
    istream.read_full stream sizeof_auxiliary_symbol_record hg hpay]
  have hg2 : ({ stream with gpos := stream.gpos + sizeof_auxiliary_symbol_record } :
      istream).good = true := by
    simpa [istream.good] using hg
  simp only [istream.tellg_good _ hg2]
  have hcast : ((stream.gpos + sizeof_auxiliary_symbol_record : Nat) : Int) +
      ((R.sizeof - sizeof_auxiliary_symbol_record : Nat) : Int) =
      ((stream.gpos + R.sizeof : Nat) : Int) := by
    omega
  rw [hcast]
  have hrej : ¬ ((0 : Int) ≤ ((stream.gpos + R.sizeof : Nat) : Int) ∧
      (((stream.gpos + R.sizeof : Nat) : Int) ≤ (stream.buf.length : Int) ∨
        stream.seek_past_end = true)) := by
    rw [hkind]
    simp only [Bool.false_eq_true, or_false, not_and, not_le]
    intro _
    omega
  simp only [istream.seekg, hf, Bool.false_eq_true, if_false, hrej]
  simp only [istream.tellg, istream.good, Bool.not_true, Bool.and_false, Bool.false_eq_true,
    if_false]
  have : (-1 : Int) - (stream.gpos : Int) ≠ (R.sizeof : Int) := by omega
  simp [this]

/-- The auxiliary loop over `n ≥ 1` announced slots of which the stream holds fewer: the
load ends with false, unless the stream buffer accepts positions past the end and only
padding bytes of the last slot are missing. -/
theorem load_auxs_truncated (R : Record) :
    ∀ (n : Nat) (self : symbol_tmpl R) (stream : istream), stream.good = true →
      stream.buf.length - stream.gpos < R.sizeof * (n + 1) →
      (stream.seek_past_end = false ∨
        stream.buf.length - stream.gpos < R.sizeof * n + sizeof_auxiliary_symbol_record) →
      (load_auxs R (R.sizeof - sizeof_auxiliary_symbol_record) (n + 1) self stream).1 =
        false := by
  have hWA : sizeof_auxiliary_symbol_record ≤ R.sizeof := by
    rcases Record.sizeof_eq R with h | h <;> simp [h, sizeof_auxiliary_symbol_record]
  have hA : sizeof_auxiliary_symbol_record = 18 := rfl
  intro n
  induction n with
  | zero =>
    intro self stream hg hshort hkind
    by_cases hpay : stream.buf.length - stream.gpos < sizeof_auxiliary_symbol_record
    · exact load_auxs_short_payload R 0 self stream hg hpay
    · rcases hkind with hk | hk
      · exact load_auxs_rejected_seek R 0 self stream hg (by omega) (by omega) hk
      · omega
  | succ n ih =>
    intro self stream hg hshort hkind
    have hmul : R.sizeof * (n + 1 + 1) = R.sizeof * (n + 1) + R.sizeof := by ring
    have hmul2 : R.sizeof * (n + 1) = R.sizeof * n + R.sizeof := by ring
    by_cases hpay : stream.buf.length - stream.gpos < sizeof_auxiliary_symbol_record
    · exact load_auxs_short_payload R (n + 1) self stream hg hpay
    · by_cases hfull : stream.gpos + R.sizeof ≤ stream.buf.length
      · rw [load_auxs_succ R (n + 1) self stream hg (by omega) (Or.inl hfull)]
        have hg3 : ({ stream with gpos := stream.gpos + R.sizeof } : istream).good = true := by
          simpa [istream.good] using hg
        refine ih _ _ hg3 (by simp only; omega) ?_
        rcases hkind with hk | hk
        · exact Or.inl hk
        · exact Or.inr (by simp only; omega)
      · by_cases hk : stream.seek_past_end = true
        · rw [load_auxs_succ R (n + 1) self stream hg (by omega) (Or.inr hk)]
          have hg3 : ({ stream with gpos := stream.gpos + R.sizeof } : istream).good = true := by
            simpa [istream.good] using hg
          exact ih _ _ hg3 (by simp only; omega) (Or.inr (by simp only; omega))
        · exact load_auxs_rejected_seek R (n + 1) self stream hg (by omega) (by omega)
            (by simpa using hk)

/-- A load from a stream that holds the header, which announces at least one auxiliary
record, but not every announced slot: the load returns false, unless the stream buffer
accepts positions past the end and only padding bytes of the last slot are missing. -/
theorem load_truncated (R : Record) (stream : istream)
    (hhead : R.sizeof ≤ stream.available) (hk : 1 ≤ declared_aux R stream)
    (hshort : stream.available < R.sizeof * (1 + declared_aux R stream))
    (hkind : stream.seek_past_end = false ∨
      stream.available < R.sizeof * declared_aux R stream + sizeof_auxiliary_symbol_record) :
    ((symbol_tmpl.ctor R).load stream).1 = false := by
  have hWpos : 0 < R.sizeof := by rcases Record.sizeof_eq R with h | h <;> omega
  obtain ⟨hg, hW⟩ := available_good stream _ hWpos hhead
  have hav : stream.available = stream.buf.length - stream.gpos := by
    simp [istream.available, hg]
  rw [hav] at hshort hkind
  have hgot : ((stream.buf.drop stream.gpos).take R.sizeof).length = R.sizeof := by
    simp only [List.length_take, List.length_drop]; omega
  have hz : (R.to_bytes (symbol_tmpl.ctor R).header).length = R.sizeof :=
    to_bytes_length R _ (by simp [symbol_tmpl.ctor, header_record.zero])
  simp only [load, istream.read_full stream R.sizeof hg hW, hgot, ne_eq, not_true_eq_false,
    if_false]
  rw [stored_full _ _ (by rw [hz, hgot])]
  simp only [get_aux_symbols_number, of_bytes_aux]
  rw [byte_at_take _ _ _ (by omega)]
  obtain ⟨n, hn⟩ : ∃ n, declared_aux R stream = n + 1 := ⟨declared_aux R stream - 1, by omega⟩
  have hn2 : byte_at (List.drop stream.gpos stream.buf) (R.sizeof - 1) = n + 1 := hn
  rw [hn2]
  rw [hn] at hshort hkind
  have hmul : R.sizeof * (1 + (n + 1)) = R.sizeof * (n + 1) + R.sizeof := by ring
  have hmul2 : R.sizeof * (n + 1) = R.sizeof * n + R.sizeof := by ring
  have hg3 : ({ stream with gpos := stream.gpos + R.sizeof } : istream).good = true := by
    simpa [istream.good] using hg
  refine load_auxs_truncated R n _ _ hg3 (by simp only; omega) ?_
  rcases hkind with h | h
  · exact Or.inl h
  · exact Or.inr (by simp only; omega)

end symbol_tmpl

/-! ### Loading one symbol: the claims -/

/-- C8 (code defect): a wide header that declares one auxiliary record, followed by the 18
payload bytes and nothing else, is 2 bytes short of the last slot. On a stream whose buffer
accepts a position past the end (a file) `load` returns true and attaches the record; the
same bytes on a stream that rejects such a position make `load` return false. -/
theorem load_truncated_padding_on_file_stream :
    (Record.big_symbol_record.sizeof *
        (1 + declared_aux Record.big_symbol_record
          ⟨List.replicate 19 0 ++ [1] ++ List.replicate 18 5, 0, false, false, true⟩) = 40 ∧
      (⟨List.replicate 19 0 ++ [1] ++ List.replicate 18 5, 0, false, false, true⟩ :
        istream).available = 38) ∧
    (symbol_tmpl.ctor Record.big_symbol_record).load
        ⟨List.replicate 19 0 ++ [1] ++ List.replicate 18 5, 0, false, false, true⟩ =
      (true,
        ⟨{ header_record.zero with aux_symbols_number := 1 }, [⟨List.replicate 18 5⟩], 0⟩,
        ⟨List.replicate 19 0 ++ [1] ++ List.replicate 18 5, 40, false, false, true⟩) ∧
    ((symbol_tmpl.ctor Record.big_symbol_record).load
        ⟨List.replicate 19 0 ++ [1] ++ List.replicate 18 5, 0, false, false, false⟩).1 =
      false := by
  refine ⟨⟨?_, ?_⟩, ?_, ?_⟩ <;> decide

/-- C9: when the stream holds, from the get position, the header and every slot the header
announces (`k` of them), `load` on a fresh symbol returns true; the header is the decoded
first `W` bytes, the auxiliary records are the first 18 bytes of each of the `k` following
`W`-byte slots in order (the other `W - 18` bytes of a slot are not looked at), and the
stream is unchanged except that the get position has advanced by `W * (1 + k)`. -/
theorem load_success_postcondition (R : Record) (stream : istream)
    (h : R.sizeof * (1 + declared_aux R stream) ≤ stream.available) :
    (symbol_tmpl.ctor R).load stream =
      (true,
        { header := R.of_bytes ((stream.buf.drop stream.gpos).take R.sizeof)
          auxs := slots_payload R stream.buf (stream.gpos + R.sizeof) (declared_aux R stream)
          index_ := 0 },
        { stream with gpos := stream.gpos + R.sizeof * (1 + declared_aux R stream) }) ∧
    ((symbol_tmpl.ctor R).load stream).2.1.auxs.length = declared_aux R stream ∧
    ((symbol_tmpl.ctor R).load stream).2.1.header.aux_symbols_number =
      declared_aux R stream := by
  have hl := symbol_tmpl.load_full R stream h
  refine ⟨hl, ?_, ?_⟩
  · rw [hl]; exact symbol_tmpl.slots_payload_length _ _ _ _
  · rw [hl]
    simp only [symbol_tmpl.of_bytes_aux, declared_aux]
    have hW : 0 < R.sizeof := by rcases Record.sizeof_eq R with h | h <;> omega
    exact symbol_tmpl.byte_at_take _ _ _ (by omega)

/-- Witness of C9: a wide header announcing one auxiliary record, whose slot carries payload
bytes 5 and padding bytes 9, read from position 1 of a 41-byte stream. -/
theorem load_success_postcondition_witness :
    Record.big_symbol_record.sizeof *
        (1 + declared_aux Record.big_symbol_record
          ⟨[7] ++ List.replicate 19 0 ++ [1] ++ List.replicate 18 5 ++ [9, 9],
            1, false, false, false⟩) ≤
      (⟨[7] ++ List.replicate 19 0 ++ [1] ++ List.replicate 18 5 ++ [9, 9],
        1, false, false, false⟩ : istream).available ∧
    (symbol_tmpl.ctor Record.big_symbol_record).load
        ⟨[7] ++ List.replicate 19 0 ++ [1] ++ List.replicate 18 5 ++ [9, 9],
          1, false, false, false⟩ =
      (true,
        ⟨{ header_record.zero with aux_symbols_number := 1 }, [⟨List.replicate 18 5⟩], 0⟩,
        ⟨[7] ++ List.replicate 19 0 ++ [1] ++ List.replicate 18 5 ++ [9, 9],
          41, false, false, false⟩) :=
  ⟨by decide,
    ((load_success_postcondition Record.big_symbol_record
      ⟨[7] ++ List.replicate 19 0 ++ [1] ++ List.replicate 18 5 ++ [9, 9],
        1, false, false, false⟩ (by decide)).1).trans (by decide)⟩

/-- C10: when fewer bytes than the header width can be extracted at the get position,
`load` on a fresh symbol returns false and the symbol has no auxiliary record. -/
theorem load_header_truncated (R : Record) (stream : istream)
    (h : stream.available < R.sizeof) :
    ((symbol_tmpl.ctor R).load stream).1 = false ∧
      ((symbol_tmpl.ctor R).load stream).2.1.auxs = [] := by
  have hlen : (stream.read R.sizeof).1.length ≠ R.sizeof := by
    unfold istream.read
    unfold istream.available at h
    by_cases hg : stream.good = true
    · simp only [hg, if_true] at h ⊢
      have h2 : (List.take R.sizeof (List.drop stream.gpos stream.buf)).length < R.sizeof := by
        simp only [List.length_take, List.length_drop]; omega
      simp only [h2, if_true]
      omega
    · simp only [hg]
      cases R <;> simp [Record.sizeof]
  simp only [symbol_tmpl.load]
  simp [hlen, symbol_tmpl.ctor]

/-- Witness of C10: a wide load from a stream of 3 bytes. -/
theorem load_header_truncated_witness :
    (⟨[1, 2, 3], 0, false, false, true⟩ : istream).available <
      Record.big_symbol_record.sizeof ∧
    ((symbol_tmpl.ctor Record.big_symbol_record).load
      ⟨[1, 2, 3], 0, false, false, true⟩).1 = false ∧
    ((symbol_tmpl.ctor Record.big_symbol_record).load
      ⟨[1, 2, 3], 0, false, false, true⟩).2.1.auxs = [] :=
  ⟨by decide,
    load_header_truncated Record.big_symbol_record ⟨[1, 2, 3], 0, false, false, true⟩
      (by decide)⟩

/-! ### Slot accounting of a loaded table -/

theorem slot_chain_iff (l : List symbol) : ∀ i,
    slot_chain i l ↔ (∀ s, l.head? = some s → s.index_ = i) ∧
      ∀ p a b, l[p]? = some a → l[p + 1]? = some b →
        b.index_ = a.index_ + 1 + a.auxs.length := by
  induction l with
  | nil => intro i; simp [slot_chain]
  | cons x rest ih =>
    intro i
    simp only [slot_chain, ih, List.head?_cons, Option.some.injEq]
    constructor
    · rintro ⟨hx, hhead, hadj⟩
      refine ⟨by intro s hs; rw [← hs]; exact hx, ?_⟩
      intro p a b hpa hpb
      cases p with
      | zero =>
        simp only [List.getElem?_cons_zero, Option.some.injEq] at hpa
        simp only [zero_add, List.getElem?_cons_succ] at hpb
        subst hpa
        have hb : rest.head? = some b := by
          rw [← hpb]; cases rest <;> simp
        rw [hhead b hb, hx]
      | succ p =>
        simp only [List.getElem?_cons_succ] at hpa hpb
        exact hadj p a b hpa hpb
    · rintro ⟨hhead, hadj⟩
      refine ⟨hhead x rfl, ?_, ?_⟩
      · intro s hs
        have hs1 : (x :: rest)[0 + 1]? = some s := by
          simp only [zero_add, List.getElem?_cons_succ]
          rw [← hs]; cases rest <;> simp
        rw [hadj 0 x s (by simp) hs1, hhead x rfl]
      · intro p a b hpa hpb
        exact hadj (p + 1) a b (by simpa using hpa) (by simpa using hpb)

theorem index_invariant_iff (l : List symbol) : index_invariant l ↔ slot_chain 0 l :=
  (slot_chain_iff l 0).symm

theorem total_slots_append (l : List symbol) (s : symbol) :
    total_slots (l ++ [s]) = total_slots l + (1 + s.auxs.length) := by
  simp [total_slots]

theorem slot_chain_cons (i : Nat) (x : symbol) (rest : List symbol) :
    slot_chain i (x :: rest) ↔ x.index_ = i ∧ slot_chain (i + 1 + x.auxs.length) rest :=
  Iff.rfl

theorem total_slots_cons (x : symbol) (rest : List symbol) :
    total_slots (x :: rest) = 1 + x.auxs.length + total_slots rest := by
  simp [total_slots]

theorem slot_chain_append (l : List symbol) (s : symbol) : ∀ i,
    slot_chain i (l ++ [s]) ↔ slot_chain i l ∧ s.index_ = i + total_slots l := by
  induction l with
  | nil => intro i; simp [slot_chain, total_slots]
  | cons x rest ih =>
    intro i
    rw [List.cons_append, slot_chain_cons, slot_chain_cons, ih, total_slots_cons]
    constructor
    · rintro ⟨h1, h2, h3⟩
      exact ⟨⟨h1, h2⟩, by omega⟩
    · rintro ⟨⟨h1, h2⟩, h3⟩
      exact ⟨h1, h2, by omega⟩

namespace symbol_tmpl

theorem load_auxs_true (R : Record) (pad : Nat) :
    ∀ (n : Nat) (self : symbol_tmpl R) (stream : istream) (s : symbol_tmpl R) (st : istream),
      load_auxs R pad n self stream = (true, s, st) →
        s.auxs.length = self.auxs.length + n ∧ s.header = self.header ∧
          s.index_ = self.index_ := by
  intro n
  induction n with
  | zero =>
    intro self stream s st h
    simp only [load_auxs, Prod.mk.injEq, true_and] at h
    rw [← h.1]; simp
  | succ n ih =>
    intro self stream s st h
    rw [load_auxs] at h
    simp only at h
    split_ifs at h with hc
    · simp at h
    · obtain ⟨h1, h2, h3⟩ := ih _ _ _ _ h
      simp only [List.length_append, List.length_singleton] at h1
      exact ⟨by omega, h2, h3⟩

theorem byte_at_lt (bs : List byte) (o : Nat) : byte_at bs o < 256 := by
  unfold byte_at; exact (bs.getD o 0).isLt

theorem load_true (R : Record) (stream : istream) (s : symbol_tmpl R) (st : istream)
    (h : (symbol_tmpl.ctor R).load stream = (true, s, st)) :
    s.auxs.length = s.header.aux_symbols_number ∧ s.auxs.length < 256 ∧ s.index_ = 0 := by
  simp only [load] at h
  split_ifs at h with hc
  · simp at h
  · obtain ⟨h1, h2, h3⟩ := load_auxs_true R _ _ _ _ _ _ h
    simp only [get_aux_symbols_number, symbol_tmpl.ctor, List.length_nil, zero_add] at h1 h2 h3
    refine ⟨?_, ?_, h3⟩
    · rw [h1, h2]
    · rw [h1, of_bytes_aux]; exact byte_at_lt _ _

end symbol_tmpl

theorem load_symbols_loop_chain (R : Record) (count : Nat) (hc : count + 255 < 2 ^ 32) :
    ∀ (fuel i : Nat) (stream : istream) (syms : List symbol) (st : istream)
      (out : List symbol),
      slot_chain 0 syms → i = total_slots syms →
      coffi_symbols.load_symbols_loop R count fuel i stream syms = some (true, st, out) →
      slot_chain 0 out := by
  intro fuel
  induction fuel with
  | zero => intro i stream syms st out _ _ h; simp [coffi_symbols.load_symbols_loop] at h
  | succ fuel ih =>
    intro i stream syms st out hch hi h
    rw [coffi_symbols.load_symbols_loop] at h
    by_cases hlt : i < count
    · simp only [hlt, if_true] at h
      rcases hload : (symbol_tmpl.ctor R).load stream with ⟨ok, s, st1⟩
      rw [hload] at h
      cases ok with
      | false => simp at h
      | true =>
        simp only at h
        obtain ⟨ha1, ha2, ha3⟩ := symbol_tmpl.load_true R stream s st1 hload
        have hlen : (s.set_index i).get_auxiliary_symbols.length = s.auxs.length := rfl
        rw [hlen] at h
        have e1 : ((i + s.auxs.length) % 2 ^ 32 + 1) % 2 ^ 32 = i + s.auxs.length + 1 := by
          omega
        rw [e1] at h
        refine ih _ _ _ _ _ ?_ ?_ h
        · rw [slot_chain_append]
          refine ⟨hch, ?_⟩
          simp only [symbol_tmpl.widen_record, symbol_tmpl.set_index]
          rw [Nat.mod_eq_of_lt (by omega)]
          omega
        · rw [total_slots_append]
          simp only [symbol_tmpl.widen_record, symbol_tmpl.set_index]
          omega
    · simp only [hlt, if_false, Option.some.injEq, Prod.mk.injEq, true_and] at h
      rw [← h.2]; exact hch

/-- C2 (as amended): for every stream, either format flag and every header whose symbol
count is at most `2 ^ 32 - 256`: if `load_symbols` on an empty table returns true, the
first loaded symbol (if any) has slot index 0 and every adjacent pair of loaded symbols
satisfies `index[p+1] = index[p] + 1 + aux_count[p]`, with `aux_count[p]` the number of
auxiliary records read for symbol `p`. -/
theorem load_symbols_index_invariant (is_bigobj0 : Bool) (fuel : Nat) (stream : istream)
    (header : coff_header) (hcount : header.symbols_count + 255 < 2 ^ 32)
    (st : istream) (t : coffi_symbols)
    (h : ({ symbols_ := [], is_bigobj := is_bigobj0 } : coffi_symbols).load_symbols fuel
      stream header = some (true, st, t)) :
    index_invariant t.symbols_ := by
  rw [index_invariant_iff]
  have key : ∀ R : Record,
      coffi_symbols.load_symbols_impl R { symbols_ := [], is_bigobj := header.is_bigobj } fuel
        stream header = some (true, st, t) → slot_chain 0 t.symbols_ := by
    intro R hR
    unfold coffi_symbols.load_symbols_impl at hR
    split_ifs at hR with h0
    · simp only [Option.some.injEq, Prod.mk.injEq, true_and] at hR
      rw [← hR.2]; trivial
    · simp only at hR
      rcases hl : coffi_symbols.load_symbols_loop R header.symbols_count fuel 0
          (stream.seekg (header.symbol_table_offset : Int)) [] with _ | ⟨ok, st1, out⟩
      · rw [hl] at hR; simp at hR
      · rw [hl] at hR
        simp only [Option.some.injEq, Prod.mk.injEq] at hR
        obtain ⟨hok, _, ht⟩ := hR
        subst hok
        rw [← ht]
        exact load_symbols_loop_chain R _ hcount fuel 0 _ [] st1 out trivial rfl hl
  unfold coffi_symbols.load_symbols at h
  simp only at h
  split_ifs at h with hb
  · exact key _ h
  · exact key _ h

/-- Witness of C2: the narrow load of `two_symbols` from offset 1 with symbol count 3 returns
true with two symbols, at slot indices 0 (one auxiliary record) and 2. -/
theorem load_symbols_index_invariant_witness :
    (⟨1, 3, false⟩ : coff_header).symbols_count + 255 < 2 ^ 32 ∧
    (⟨[], true⟩ : coffi_symbols).load_symbols 5 ⟨two_symbols, 0, false, false, false⟩
        ⟨1, 3, false⟩ =
      some (true, ⟨two_symbols, 55, false, false, false⟩,
        ⟨[⟨{ header_record.zero with aux_symbols_number := 1 }, [⟨List.replicate 18 5⟩], 0⟩,
          slot_symbol 2], false⟩) ∧
    index_invariant
      [⟨{ header_record.zero with aux_symbols_number := 1 }, [⟨List.replicate 18 5⟩], 0⟩,
        slot_symbol 2] :=
  ⟨by decide, by decide,
    load_symbols_index_invariant true 5 ⟨two_symbols, 0, false, false, false⟩ ⟨1, 3, false⟩
      (by decide) ⟨two_symbols, 55, false, false, false⟩
      ⟨[⟨{ header_record.zero with aux_symbols_number := 1 }, [⟨List.replicate 18 5⟩], 0⟩,
        slot_symbol 2], false⟩ (by decide)⟩

/-! ### A slot counter that wraps -/

theorem wrap_buf_length (N : Nat) (hN : 2 ≤ N) : (wrap_buf N).length = 36 * N - 17 := by
  simp only [wrap_buf, List.length_append, List.length_replicate, List.length_singleton]
  omega

theorem wrap_buf_get (N k : Nat) :
    (wrap_buf N)[k]? =
      if k < 18 * (N - 1) then some 0
      else if k = 18 * (N - 1) then some 1
      else if k < 18 * (N - 1) + 1 + 18 * N then some 0 else none := by
  unfold wrap_buf
  by_cases h1 : k < 18 * (N - 1)
  · rw [List.append_assoc, List.getElem?_append_left (by simpa using h1)]
    simp [h1, List.getElem?_replicate]
  · rw [List.append_assoc, List.getElem?_append_right (by simpa using h1)]
    simp only [List.length_replicate, h1, if_false]
    by_cases h2 : k = 18 * (N - 1)
    · simp [h2]
    · simp only [h2, if_false]
      have : k - 18 * (N - 1) = (k - 18 * (N - 1) - 1) + 1 := by omega
      rw [this, List.singleton_append, List.getElem?_cons_succ, List.getElem?_replicate]
      by_cases h3 : k < 18 * (N - 1) + 1 + 18 * N
      · have : k - 18 * (N - 1) - 1 < 18 * N := by omega
        simp [h3, this]
      · have : ¬ k - 18 * (N - 1) - 1 < 18 * N := by omega
        simp [h3, this]

theorem take_drop_eq (buf : List byte) (g : Nat) (want : List byte)
    (h : ∀ j, j < want.length → buf[g + j]? = want[j]?) :
    (buf.drop g).take want.length = want := by
  apply List.ext_getElem?
  intro j
  rw [List.getElem?_take]
  by_cases hj : j < want.length
  · simp only [hj, if_true, List.getElem?_drop]
    exact h j hj
  · simp only [hj, if_false]
    rw [List.getElem?_eq_none (by omega)]


theorem load_zero_header (stream : istream) (hg : stream.good = true)
    (hlen : stream.gpos + 18 ≤ stream.buf.length)
    (hz : (stream.buf.drop stream.gpos).take 18 = List.replicate 18 0) :
    (symbol_tmpl.ctor Record.symbol_record).load stream =
      (true, symbol_tmpl.ctor Record.symbol_record,
        { stream with gpos := stream.gpos + 18 }) := by
  have hd : declared_aux Record.symbol_record stream = 0 := by
    unfold declared_aux
    rw [← symbol_tmpl.byte_at_take _ 18 _ (by decide), hz]
    decide
  have hav : Record.symbol_record.sizeof *
      (1 + declared_aux Record.symbol_record stream) ≤ stream.available := by
    rw [hd]
    simp only [istream.available, hg, if_true, Record.sizeof]
    omega
  rw [symbol_tmpl.load_full _ _ hav, hd]
  simp only [Record.sizeof, hz, slots_payload, List.range_zero, List.map_nil]
  rfl

theorem load_one_aux_header (stream : istream) (hg : stream.good = true)
    (hlen : stream.gpos + 36 ≤ stream.buf.length)
    (hh : (stream.buf.drop stream.gpos).take 18 = List.replicate 17 0 ++ [1])
    (ha : (stream.buf.drop (stream.gpos + 18)).take 18 = List.replicate 18 0) :
    (symbol_tmpl.ctor Record.symbol_record).load stream =
      (true,
        { header := { header_record.zero with aux_symbols_number := 1 },
          auxs := [{ value := List.replicate 18 0 }], index_ := 0 },
        { stream with gpos := stream.gpos + 36 }) := by
  have hd : declared_aux Record.symbol_record stream = 1 := by
    unfold declared_aux
    rw [← symbol_tmpl.byte_at_take _ 18 _ (by decide), hh]
    decide
  have hav : Record.symbol_record.sizeof *
      (1 + declared_aux Record.symbol_record stream) ≤ stream.available := by
    rw [hd]
    simp only [istream.available, hg, if_true, Record.sizeof]
    omega
  have hs : slots_payload Record.symbol_record stream.buf (stream.gpos + 18) 1 =
      [{ value := List.replicate 18 0 }] := by
    rw [symbol_tmpl.slots_payload_succ]
    simp only [sizeof_auxiliary_symbol_record, ha, slots_payload, List.range_zero,
      List.map_nil]
  have hb : Record.symbol_record.of_bytes (List.replicate 17 0 ++ [1]) =
      { header_record.zero with aux_symbols_number := 1 } := by decide
  rw [symbol_tmpl.load_full _ _ hav, hd]
  simp only [Record.sizeof, hh, hs, hb]

theorem widen_zero (i : Nat) (hi : i < 2 ^ 32) :
    ((symbol_tmpl.ctor Record.symbol_record).set_index i).widen_record = slot_symbol i := by
  simp only [symbol_tmpl.widen_record, symbol_tmpl.set_index, symbol_tmpl.ctor, slot_symbol,
    Nat.mod_eq_of_lt hi]
  rfl

/-- A run of `n` all-zero narrow headers is loaded as `n` symbols without auxiliary
records at consecutive slot indices. -/
theorem load_symbols_zero_run (count : Nat) (hc : count < 2 ^ 32) :
    ∀ (n fuel i : Nat) (stream : istream) (syms : List symbol), stream.good = true →
      stream.gpos + 18 * n ≤ stream.buf.length →
      (∀ j, j < n →
        (stream.buf.drop (stream.gpos + 18 * j)).take 18 = List.replicate 18 0) →
      i + n ≤ count →
      coffi_symbols.load_symbols_loop Record.symbol_record count (fuel + n) i stream syms =
        coffi_symbols.load_symbols_loop Record.symbol_record count fuel (i + n)
          { stream with gpos := stream.gpos + 18 * n }
          (syms ++ (List.range n).map fun j => slot_symbol (i + j)) := by
  intro n
  induction n with
  | zero => intro fuel i stream syms _ _ _ _; simp
  | succ n ih =>
    intro fuel i stream syms hg hlen hz hin
    have hfuel : fuel + (n + 1) = (fuel + n) + 1 := by omega
    rw [hfuel, coffi_symbols.load_symbols_loop]
    have hlt : i < count := by omega
    simp only [hlt, if_true]
    rw [load_zero_header stream hg (by omega) (by simpa using hz 0 (by omega))]
    simp only
    have hlen0 : ((symbol_tmpl.ctor Record.symbol_record).set_index
        i).get_auxiliary_symbols.length = 0 := rfl
    rw [hlen0, widen_zero i (by omega)]
    have e1 : ((i + 0) % 2 ^ 32 + 1) % 2 ^ 32 = i + 1 := by omega
    rw [e1]
    have hg2 : ({ stream with gpos := stream.gpos + 18 } : istream).good = true := by
      simpa [istream.good] using hg
    rw [ih fuel (i + 1) _ _ hg2 (by simp only; omega) ?_ (by omega)]
    · have e2 : i + 1 + n = i + (n + 1) := by omega
      have e3 : stream.gpos + 18 + 18 * n = stream.gpos + 18 * (n + 1) := by omega
      simp only [e2, e3, List.range_succ_eq_map, List.map_cons, List.map_map, Nat.add_zero,
        List.append_assoc, List.singleton_append]
      congr 2
      simp only [List.cons.injEq, true_and, List.map_inj_left, Function.comp]
      intro j _
      congr 1
      omega
    · intro j hj
      have := hz (j + 1) (by omega)
      have e : stream.gpos + 18 * (j + 1) = stream.gpos + 18 + 18 * j := by omega
      rw [e] at this
      exact this

theorem one_aux_header_get (k : Nat) (hk : k < 18) :
    (List.replicate 17 (0 : byte) ++ [1])[k]? = if k < 17 then some 0 else some 1 := by
  interval_cases k <;> rfl

/-- The load of `wrap_stream N` for `N = 2 ^ 32`, stretch by stretch. -/
theorem wrap_load (N : Nat) (hN : N = 2 ^ 32) (f : Nat) :
    coffi_symbols.ctor.load_symbols (f + 2 * N) (wrap_stream N) (wrap_header N) =
      some (true, { wrap_stream N with gpos := 36 * N - 17 },
        { symbols_ := wrap_table N, is_bigobj := false }) := by
  have hlenb : (wrap_buf N).length = 36 * N - 17 := wrap_buf_length N (by omega)
  have hgood : ∀ g, ({ wrap_stream N with gpos := g } : istream).good = true := fun _ => rfl
  -- the three stretches of the buffer
  have hz1 : ∀ j, j < N - 2 →
      ((wrap_buf N).drop (1 + 18 * j)).take 18 = List.replicate 18 0 := by
    intro j hj
    have := take_drop_eq (wrap_buf N) (1 + 18 * j) (List.replicate 18 0) (by
      intro k hk
      simp only [List.length_replicate] at hk
      rw [wrap_buf_get, List.getElem?_replicate]
      have : 1 + 18 * j + k < 18 * (N - 1) := by omega
      simp [this, hk])
    simpa using this
  have hh : ((wrap_buf N).drop (1 + 18 * (N - 2))).take 18 = List.replicate 17 0 ++ [1] := by
    have := take_drop_eq (wrap_buf N) (1 + 18 * (N - 2)) (List.replicate 17 0 ++ [1]) (by
      intro k hk
      simp only [List.length_append, List.length_replicate, List.length_singleton] at hk
      rw [wrap_buf_get, one_aux_header_get k (by omega)]
      by_cases h17 : k < 17
      · have : 1 + 18 * (N - 2) + k < 18 * (N - 1) := by omega
        simp [this, h17]
      · have h1 : ¬ 1 + 18 * (N - 2) + k < 18 * (N - 1) := by omega
        have h2 : 1 + 18 * (N - 2) + k = 18 * (N - 1) := by omega
        simp [h1, h2, h17])
    simpa using this
  have hz3 : ∀ j, j < N →
      ((wrap_buf N).drop (18 * N - 17 + 18 * j)).take 18 = List.replicate 18 0 := by
    intro j hj
    have := take_drop_eq (wrap_buf N) (18 * N - 17 + 18 * j) (List.replicate 18 0) (by
      intro k hk
      simp only [List.length_replicate] at hk
      rw [wrap_buf_get, List.getElem?_replicate]
      have h1 : ¬ 18 * N - 17 + 18 * j + k < 18 * (N - 1) := by omega
      have h2 : ¬ 18 * N - 17 + 18 * j + k = 18 * (N - 1) := by omega
      have h3 : 18 * N - 17 + 18 * j + k < 18 * (N - 1) + 1 + 18 * N := by omega
      simp [h1, h2, h3, hk])
    simpa using this
  -- dispatch and seek
  have hseek : (wrap_stream N).seekg ((1 : Nat) : Int) = { wrap_stream N with gpos := 1 } :=
    istream.seekg_good _ 1 rfl (Or.inl (by
      show 1 ≤ (wrap_buf N).length
      omega))
  unfold coffi_symbols.load_symbols coffi_symbols.load_symbols_impl
  simp only [coffi_symbols.ctor, wrap_header, Bool.false_eq_true, if_false, one_ne_zero]
  rw [hseek]
  -- first run: slots 0 .. N - 3
  have hf1 : f + 2 * N = (f + N + 2) + (N - 2) := by omega
  rw [hf1, load_symbols_zero_run (N - 1) (by omega) (N - 2) (f + N + 2) 0
    { wrap_stream N with gpos := 1 } [] (hgood _)
    (by show 1 + 18 * (N - 2) ≤ (wrap_buf N).length; omega)
    (by intro j hj; exact hz1 j hj) (by omega)]
  -- slot N - 2: the header that announces one auxiliary record
  have hf2 : f + N + 2 = (f + N + 1) + 1 := by omega
  rw [hf2, coffi_symbols.load_symbols_loop]
  have hlt : 0 + (N - 2) < N - 1 := by omega
  simp only [hlt, if_true]
  rw [load_one_aux_header _ (hgood _)
    (by show 1 + 18 * (N - 2) + 36 ≤ (wrap_buf N).length; omega)
    (by exact hh)
    (by
      show ((wrap_buf N).drop (1 + 18 * (N - 2) + 18)).take 18 = List.replicate 18 0
      have := hz3 0 (by omega)
      have e : 18 * N - 17 + 18 * 0 = 1 + 18 * (N - 2) + 18 := by omega
      rw [e] at this
      exact this)]
  simp only
  have hw : (symbol_tmpl.set_index
      ({ header := { header_record.zero with aux_symbols_number := 1 },
         auxs := [{ value := List.replicate 18 0 }], index_ := 0 } :
        symbol_tmpl Record.symbol_record) (0 + (N - 2))).widen_record = wrap_symbol N := by
    simp only [symbol_tmpl.widen_record, symbol_tmpl.set_index, wrap_symbol, Nat.zero_add,
      Nat.mod_eq_of_lt (show N - 2 < 2 ^ 32 by omega)]
    rfl
  have hl : (symbol_tmpl.set_index
      ({ header := { header_record.zero with aux_symbols_number := 1 },
         auxs := [{ value := List.replicate 18 0 }], index_ := 0 } :
        symbol_tmpl Record.symbol_record) (0 + (N - 2))).get_auxiliary_symbols.length = 1 :=
    rfl
  rw [hw, hl]
  have e1 : ((0 + (N - 2) + 1) % 2 ^ 32 + 1) % 2 ^ 32 = 0 := by omega
  rw [e1]
  -- second run: the counter is back at 0
  have hf3 : f + N + 1 = (f + 2) + (N - 1) := by omega
  rw [hf3, load_symbols_zero_run (N - 1) (by omega) (N - 1) (f + 2) 0 _ _ (hgood _)
    (by show 1 + 18 * (N - 2) + 36 + 18 * (N - 1) ≤ (wrap_buf N).length; omega)
    (by
      intro j hj
      show ((wrap_buf N).drop (1 + 18 * (N - 2) + 36 + 18 * j)).take 18 = List.replicate 18 0
      have := hz3 (j + 1) (by omega)
      have e : 18 * N - 17 + 18 * (j + 1) = 1 + 18 * (N - 2) + 36 + 18 * j := by omega
      rw [e] at this
      exact this)
    (by omega)]
  -- the counter has reached the count
  have hf4 : f + 2 = (f + 1) + 1 := by omega
  rw [hf4, coffi_symbols.load_symbols_loop]
  have hnlt : ¬ 0 + (N - 1) < N - 1 := by omega
  simp only [hnlt, if_false]
  have eg : 1 + 18 * (N - 2) + 36 + 18 * (N - 1) = 36 * N - 17 := by omega
  simp only [eg, wrap_table, Nat.zero_add, List.nil_append, wrap_stream]


theorem wrap_table_get (N : Nat) (hN : 2 ≤ N) :
    (wrap_table N)[N - 2]? = some (wrap_symbol N) ∧
    (wrap_table N)[N - 2 + 1]? = some (slot_symbol 0) := by
  unfold wrap_table
  constructor
  · rw [List.getElem?_append_left (by simp), List.getElem?_append_right (by simp)]
    simp
  · rw [List.getElem?_append_right (by simp)]
    simp only [List.length_append, List.length_map, List.length_range, List.length_singleton,
      Nat.sub_self, List.getElem?_map]
    rw [List.getElem?_range (by omega)]
    rfl

theorem wrap_table_breaks (N : Nat) (hN : 2 ≤ N) : ¬ index_invariant (wrap_table N) := by
  intro h
  obtain ⟨h1, h2⟩ := wrap_table_get N hN
  have := h.2 (N - 2) _ _ h1 h2
  simp only [slot_symbol, wrap_symbol, List.length_singleton] at this
  omega

/-- Counterexample to C2 as stated: a narrow table at offset 1 with symbol count
`2 ^ 32 - 1`, whose slot `2 ^ 32 - 2` holds a header with one auxiliary record and whose
other headers are all zero. The load returns true; the slot counter, a `uint32_t`, wraps
from `2 ^ 32 - 2` past `2 ^ 32 - 1` to 0, so the symbol after the one at slot index
`2 ^ 32 - 2` (which has 1 auxiliary record) gets slot index 0, not `2 ^ 32`. -/
theorem load_symbols_slot_counter_wraps :
    (wrap_header (2 ^ 32)).symbol_table_offset ≠ 0 ∧
    coffi_symbols.ctor.load_symbols (2 ^ 33) (wrap_stream (2 ^ 32)) (wrap_header (2 ^ 32)) =
      some (true, { wrap_stream (2 ^ 32) with gpos := 36 * 2 ^ 32 - 17 },
        { symbols_ := wrap_table (2 ^ 32), is_bigobj := false }) ∧
    (wrap_table (2 ^ 32))[2 ^ 32 - 2]? = some (wrap_symbol (2 ^ 32)) ∧
    (wrap_table (2 ^ 32))[2 ^ 32 - 2 + 1]? = some (slot_symbol 0) ∧
    ¬ index_invariant (wrap_table (2 ^ 32)) :=
  ⟨Nat.one_ne_zero, wrap_load (2 ^ 32) rfl 0, (wrap_table_get _ (by norm_num)).1,
    (wrap_table_get _ (by norm_num)).2, wrap_table_breaks _ (by norm_num)⟩

/-! ### Saving and loading a table -/

open coffi_symbols

namespace symbol_tmpl

theorem foldl_write (f : auxiliary_symbol_record → List byte)
    (l : List auxiliary_symbol_record) :
    ∀ out : List byte, l.foldl (fun stream aux => stream ++ f aux) out =
      out ++ (l.map f).flatten := by
  induction l with
  | nil => intro out; simp
  | cons a rest ih =>
    intro out
    simp only [List.foldl_cons, ih, List.map_cons, List.flatten_cons, List.append_assoc]

theorem save_eq (R : Record) (s : symbol_tmpl R) (out : ostream) :
    (s.save out).2 = out ++ save_bytes R s := by
  have hpad : (List.replicate (R.sizeof - sizeof_auxiliary_symbol_record + 1) (0 : byte)).take
      (R.sizeof - sizeof_auxiliary_symbol_record) =
      List.replicate (R.sizeof - sizeof_auxiliary_symbol_record) 0 := by
    rw [List.take_replicate]
    congr 1
    omega
  have hauxs : (s.set_aux_symbols_number s.auxs.length).auxs = s.auxs := rfl
  simp only [save, hpad, ostream.write, hauxs, List.append_assoc]
  have := foldl_write (slot_bytes R) s.auxs
    (out ++ R.to_bytes (s.set_aux_symbols_number s.auxs.length).header)
  simp only [slot_bytes] at this
  rw [this]
  simp only [save_bytes, set_aux_symbols_number, slot_bytes, List.append_assoc]

theorem length_eight {α : Type} (l : List α) (h : l.length = 8) :
    ∃ a b c d e f g i, l = [a, b, c, d, e, f, g, i] := by
  rcases l with _ | ⟨a, _ | ⟨b, _ | ⟨c, _ | ⟨d, _ | ⟨e, _ | ⟨f, _ | ⟨g, _ | ⟨i, _ | ⟨j, l⟩⟩⟩⟩⟩⟩⟩⟩⟩ <;>
    simp at h
  exact ⟨a, b, c, d, e, f, g, i, rfl⟩

theorem of_bytes_to_bytes (R : Record) (h : header_record) (hty : h.typed R) :
    R.of_bytes (R.to_bytes h) = h := by
  obtain ⟨name, value, section_number, type, storage_class, aux_symbols_number⟩ := h
  obtain ⟨hn, hv, hs, ht, hc, ha⟩ := hty
  simp only at hn hv hs ht hc ha
  obtain ⟨a, b, c, d, e, f, g, i, rfl⟩ := length_eight name hn
  cases R
  · simp only [Record.section_bits] at hs
    simp only [Record.to_bytes, Record.of_bytes, le32, le16, of_le32, of_le16, byte_at,
      to_byte, List.cons_append, List.nil_append, List.take_succ_cons, List.take_zero,
      List.getD_cons_succ, List.getD_cons_zero, header_record.mk.injEq, true_and]
    refine ⟨?_, ?_, ?_, ?_, ?_⟩ <;> omega
  · simp only [Record.section_bits] at hs
    simp only [Record.to_bytes, Record.of_bytes, le32, le16, of_le32, of_le16, byte_at,
      to_byte, List.cons_append, List.nil_append, List.take_succ_cons, List.take_zero,
      List.getD_cons_succ, List.getD_cons_zero, header_record.mk.injEq, true_and]
    refine ⟨?_, ?_, ?_, ?_, ?_⟩ <;> omega

theorem slot_bytes_length (R : Record) (a : auxiliary_symbol_record) (ha : a.typed) :
    (slot_bytes R a).length = R.sizeof := by
  unfold auxiliary_symbol_record.typed at ha
  simp only [slot_bytes, List.length_append, List.length_replicate, ha]
  rcases Record.sizeof_eq R with h | h <;> simp [h, sizeof_auxiliary_symbol_record]

theorem slots_flatten_length (R : Record) (l : List auxiliary_symbol_record)
    (hl : ∀ a ∈ l, a.typed) :
    ((l.map (slot_bytes R)).flatten).length = R.sizeof * l.length := by
  induction l with
  | nil => simp
  | cons a rest ih =>
    simp only [List.map_cons, List.flatten_cons, List.length_append, List.length_cons,
      slot_bytes_length R a (hl a (List.mem_cons_self _ _)),
      ih (fun b hb => hl b (List.mem_cons_of_mem _ hb))]
    ring

/-- The slots written by `save` are read back as the records they were written from. -/
theorem slots_payload_saved (R : Record) (buf : List byte) :
    ∀ (l : List auxiliary_symbol_record) (g : Nat) (rest : List byte),
      (∀ a ∈ l, a.typed) →
      buf.drop g = (l.map (slot_bytes R)).flatten ++ rest →
      slots_payload R buf g l.length = l := by
  intro l
  induction l with
  | nil => intro g rest _ _; simp [slots_payload]
  | cons a tl ih =>
    intro g rest hl hv
    have ha : a.value.length = sizeof_auxiliary_symbol_record := hl a (List.mem_cons_self _ _)
    rw [List.length_cons, slots_payload_succ]
    have h1 : (buf.drop g).take sizeof_auxiliary_symbol_record = a.value := by
      rw [hv]
      simp only [List.map_cons, List.flatten_cons, slot_bytes, List.append_assoc]
      exact List.take_left' ha
    have h2 : buf.drop (g + R.sizeof) = (tl.map (slot_bytes R)).flatten ++ rest := by
      rw [← List.drop_drop, hv]
      simp only [List.map_cons, List.flatten_cons, List.append_assoc]
      exact List.drop_left' (slot_bytes_length R a ha)
    rw [h1, ih (g + R.sizeof) rest (fun b hb => hl b (List.mem_cons_of_mem _ hb)) h2]

theorem save_bytes_length (R : Record) (s : symbol_tmpl R) (hn : s.header.name.length = 8)
    (hl : ∀ a ∈ s.auxs, a.typed) :
    (save_bytes R s).length = R.sizeof * (1 + s.auxs.length) := by
  simp only [save_bytes, List.length_append, slots_flatten_length R s.auxs hl]
  rw [to_bytes_length R _ (by simpa using hn)]
  ring

/-- A load from a stream positioned at the bytes `save` wrote for a symbol. -/
theorem load_saved (R : Record) (s : symbol_tmpl R) (hty : s.header.typed R)
    (hl : ∀ a ∈ s.auxs, a.typed) (hlen : s.auxs.length < 2 ^ 8)
    (stream : istream) (hg : stream.good = true) (rest : List byte)
    (hv : stream.buf.drop stream.gpos = save_bytes R s ++ rest) :
    (symbol_tmpl.ctor R).load stream =
      (true,
        { header := { s.header with aux_symbols_number := s.auxs.length }
          auxs := s.auxs, index_ := 0 },
        { stream with gpos := stream.gpos + R.sizeof * (1 + s.auxs.length) }) := by
  have hW : 0 < R.sizeof := by rcases Record.sizeof_eq R with h | h <;> omega
  have hty2 : ({ s.header with aux_symbols_number := s.auxs.length % 2 ^ 8 } :
      header_record).typed R := by
    obtain ⟨h1, h2, h3, h4, h5, h6⟩ := hty
    exact ⟨h1, h2, h3, h4, h5, Nat.mod_lt _ (by decide)⟩
  have hhl : (R.to_bytes { s.header with aux_symbols_number := s.auxs.length % 2 ^ 8 }).length =
      R.sizeof := to_bytes_length R _ hty.1
  have hsl : (save_bytes R s).length = R.sizeof * (1 + s.auxs.length) :=
    save_bytes_length R s hty.1 hl
  have hhead : (stream.buf.drop stream.gpos).take R.sizeof =
      R.to_bytes { s.header with aux_symbols_number := s.auxs.length % 2 ^ 8 } := by
    rw [hv, save_bytes, List.append_assoc]
    exact List.take_left' hhl
  have hd : declared_aux R stream = s.auxs.length := by
    unfold declared_aux
    rw [← byte_at_take _ R.sizeof _ (by omega), hhead, ← of_bytes_aux,
      of_bytes_to_bytes R _ hty2]
    exact Nat.mod_eq_of_lt hlen
  have hblen : stream.gpos + R.sizeof * (1 + s.auxs.length) ≤ stream.buf.length := by
    have := congrArg List.length hv
    simp only [List.length_drop, List.length_append, hsl] at this
    have hpos : 0 < R.sizeof * (1 + s.auxs.length) := Nat.mul_pos hW (by omega)
    omega
  have hav : R.sizeof * (1 + declared_aux R stream) ≤ stream.available := by
    rw [hd]
    simp only [istream.available, hg, if_true]
    omega
  have htail : stream.buf.drop (stream.gpos + R.sizeof) =
      (s.auxs.map (slot_bytes R)).flatten ++ rest := by
    rw [← List.drop_drop, hv, save_bytes, List.append_assoc]
    exact List.drop_left' hhl
  rw [load_full R stream hav, hd, hhead, of_bytes_to_bytes R _ hty2,
    slots_payload_saved R stream.buf s.auxs _ rest hl htail]
  simp only [Nat.mod_eq_of_lt hlen]

end symbol_tmpl

theorem foldl_save (R : Record) (conv : symbol → symbol_tmpl R) (l : List symbol) :
    ∀ out : ostream, l.foldl (fun stream s => ((conv s).save stream).2) out =
      out ++ table_bytes R conv l := by
  induction l with
  | nil => intro out; simp [table_bytes]
  | cons a rest ih =>
    intro out
    rw [List.foldl_cons, ih, symbol_tmpl.save_eq]
    simp only [table_bytes, List.map_cons, List.flatten_cons, List.append_assoc]

theorem save_symbols_eq (t : coffi_symbols) (out : ostream) :
    t.save_symbols out = out ++
      (if t.is_bigobj then table_bytes Record.big_symbol_record (fun s => s) t.symbols_
       else table_bytes Record.symbol_record (fun s => s.narrow_record) t.symbols_) := by
  unfold save_symbols
  split_ifs with h
  · exact foldl_save Record.big_symbol_record (fun s => s) t.symbols_ out
  · exact foldl_save Record.symbol_record (fun s => s.narrow_record) t.symbols_ out

theorem table_bytes_length (R : Record) (conv : symbol → symbol_tmpl R) (l : List symbol)
    (h : ∀ s ∈ l, (conv s).header.name.length = 8 ∧ (∀ a ∈ (conv s).auxs, a.typed) ∧
      (conv s).auxs = s.auxs) :
    (table_bytes R conv l).length = R.sizeof * total_slots l := by
  induction l with
  | nil => simp [table_bytes, total_slots]
  | cons a rest ih =>
    obtain ⟨h1, h2, h3⟩ := h a (List.mem_cons_self _ _)
    have := ih (fun s hs => h s (List.mem_cons_of_mem _ hs))
    simp only [table_bytes, List.map_cons, List.flatten_cons, List.length_append] at this ⊢
    rw [this, symbol_tmpl.save_bytes_length R _ h1 h2, h3, total_slots_cons]
    ring

/-- The load loop over the bytes `save_symbols` wrote for `syms`, entered at the slot index
of the first of them. -/
theorem load_symbols_loop_saved (R : Record) (conv : symbol → symbol_tmpl R) (count : Nat)
    (hc : count < 2 ^ 32) :
    ∀ (syms : List symbol) (fuel i : Nat) (stream : istream) (acc : List symbol)
      (rest : List byte),
      stream.good = true →
      stream.buf.drop stream.gpos = table_bytes R conv syms ++ rest →
      (∀ s ∈ syms, (conv s).header.typed R ∧ (∀ a ∈ (conv s).auxs, a.typed) ∧
        s.auxs.length < 2 ^ 8 ∧ (conv s).auxs = s.auxs) →
      slot_chain i syms → i + total_slots syms = count → syms.length < fuel →
      load_symbols_loop R count fuel i stream acc =
        some (true, { stream with gpos := stream.gpos + R.sizeof * total_slots syms },
          acc ++ syms.map fun s =>
            ({ header := { (conv s).header with aux_symbols_number := s.auxs.length }
               auxs := s.auxs, index_ := s.index_ } : symbol_tmpl R).widen_record) := by
  intro syms
  induction syms with
  | nil =>
    intro fuel i stream acc rest hg hv hs hch hcount hfuel
    obtain ⟨f, rfl⟩ : ∃ f, fuel = f + 1 := ⟨fuel - 1, by simp at hfuel; omega⟩
    simp only [total_slots, List.map_nil, List.sum_nil, Nat.add_zero] at hcount
    rw [load_symbols_loop]
    simp [hcount, total_slots]
  | cons s tl ih =>
    intro fuel i stream acc rest hg hv hs hch hcount hfuel
    obtain ⟨f, rfl⟩ : ∃ f, fuel = f + 1 := ⟨fuel - 1, by simp at hfuel; omega⟩
    obtain ⟨hty, hax, hlen, hcv⟩ := hs s (List.mem_cons_self _ _)
    rw [slot_chain_cons] at hch
    obtain ⟨hidx, hch⟩ := hch
    rw [total_slots_cons] at hcount
    have hlt : i < count := by omega
    have hv1 : stream.buf.drop stream.gpos =
        save_bytes R (conv s) ++ (table_bytes R conv tl ++ rest) := by
      rw [hv]; simp only [table_bytes, List.map_cons, List.flatten_cons, List.append_assoc]
    have hload := symbol_tmpl.load_saved R (conv s) hty hax (by rw [hcv]; exact hlen) stream hg
      _ hv1
    rw [hcv] at hload
    rw [load_symbols_loop]
    simp only [hlt, if_true, hload]
    have hl1 : (symbol_tmpl.set_index
        ({ header := { (conv s).header with aux_symbols_number := s.auxs.length }
           auxs := s.auxs, index_ := 0 } : symbol_tmpl R) i).get_auxiliary_symbols.length =
        s.auxs.length := rfl
    have hw : (symbol_tmpl.set_index
        ({ header := { (conv s).header with aux_symbols_number := s.auxs.length }
           auxs := s.auxs, index_ := 0 } : symbol_tmpl R) i) =
        { header := { (conv s).header with aux_symbols_number := s.auxs.length }
          auxs := s.auxs, index_ := s.index_ } := by
      simp only [symbol_tmpl.set_index, Nat.mod_eq_of_lt (show i < 2 ^ 32 by omega), hidx]
    have e1 : ((i + s.auxs.length) % 2 ^ 32 + 1) % 2 ^ 32 = i + 1 + s.auxs.length := by omega
    rw [hl1, hw, e1]
    have hg2 : ({ stream with gpos := stream.gpos + R.sizeof * (1 + s.auxs.length) } :
        istream).good = true := by
      simpa [istream.good] using hg
    have hslen : (save_bytes R (conv s)).length = R.sizeof * (1 + s.auxs.length) := by
      rw [symbol_tmpl.save_bytes_length R _ hty.1 hax, hcv]
    have hv2 : stream.buf.drop (stream.gpos + R.sizeof * (1 + s.auxs.length)) =
        table_bytes R conv tl ++ rest := by
      rw [← List.drop_drop, hv1]
      exact List.drop_left' hslen
    rw [ih f (i + 1 + s.auxs.length) _ _ rest hg2 hv2
      (fun x hx => hs x (List.mem_cons_of_mem _ hx)) hch (by omega)
      (by simp only [List.length_cons] at hfuel; omega)]
    simp only [List.map_cons, List.append_assoc, List.singleton_append, total_slots_cons,
      Option.some.injEq, Prod.mk.injEq, true_and, and_true]
    congr 1
    ring

theorem istream.seekg_clear (s : istream) (p : Nat) (hf : s.failbit = false)
    (hp : p ≤ s.buf.length) :
    s.seekg (p : Int) = { s with eofbit := false, gpos := p } := by
  cases s
  simp only at hf hp
  subst hf
  have : (0 : Int) ≤ (p : Int) := Int.ofNat_nonneg p
  simp [istream.seekg, hp, this]

theorem save_load_general (R : Record) (conv : symbol → symbol_tmpl R) (t : coffi_symbols)
    (hdm : data_model t) (hconv : ∀ s ∈ t.symbols_, s.typed →
      (conv s).header.typed R ∧ (conv s).auxs = s.auxs)
    (pre post : List byte) (header : coff_header) (hpre : pre.length ≠ 0)
    (hoff : header.symbol_table_offset = pre.length)
    (hcnt : header.symbols_count = total_slots t.symbols_) (hty : header.typed)
    (stream : istream) (hbuf : stream.buf = pre ++ table_bytes R conv t.symbols_ ++ post)
    (hfail : stream.failbit = false) (self : coffi_symbols) (hself : self.symbols_ = [])
    (fuel : Nat) (hfuel : t.symbols_.length < fuel) :
    load_symbols_impl R self fuel stream header =
      some (true,
        { stream with eofbit := false,
                      gpos := (pre ++ table_bytes R conv t.symbols_).length },
        { self with symbols_ := t.symbols_.map fun s =>
            ({ header := { (conv s).header with aux_symbols_number := s.auxs.length }
               auxs := s.auxs, index_ := s.index_ } : symbol_tmpl R).widen_record }) := by
  obtain ⟨hsym, hinv⟩ := hdm
  have hper : ∀ s ∈ t.symbols_, (conv s).header.typed R ∧ (∀ a ∈ (conv s).auxs, a.typed) ∧
      s.auxs.length < 2 ^ 8 ∧ (conv s).auxs = s.auxs := by
    intro s hs
    obtain ⟨hst, hsa⟩ := hsym s hs
    obtain ⟨hc1, hc2⟩ := hconv s hs hst
    exact ⟨hc1, by rw [hc2]; exact hst.2.1, by omega, hc2⟩
  have htl : (table_bytes R conv t.symbols_).length = R.sizeof * total_slots t.symbols_ :=
    table_bytes_length R conv _ (fun s hs => ⟨(hper s hs).1.1, (hper s hs).2.1, (hper s hs).2.2.2⟩)
  unfold load_symbols_impl
  have h0 : ¬ header.symbol_table_offset = 0 := by omega
  simp only [h0, if_false]
  rw [hoff, istream.seekg_clear stream pre.length hfail (by rw [hbuf]; simp)]
  have hg : ({ stream with eofbit := false, gpos := pre.length } : istream).good = true := by
    simp [istream.good, hfail]
  have hv : ({ stream with eofbit := false, gpos := pre.length } : istream).buf.drop
      ({ stream with eofbit := false, gpos := pre.length } : istream).gpos =
      table_bytes R conv t.symbols_ ++ post := by
    simp only [hbuf, List.append_assoc]
    exact List.drop_left' rfl
  rw [load_symbols_loop_saved R conv header.symbols_count hty.2 t.symbols_ fuel 0 _ self.symbols_
    post hg hv hper ((index_invariant_iff _).mp hinv) (by omega) hfuel]
  simp only [hself, List.nil_append, List.length_append, htl]

/-- C1 (as amended): for either format flag and every table that satisfies the data model
(values of the field types, at most 255 auxiliary records per symbol, slot indices by I1),
the bytes `save_symbols` appends to a stream that already holds `P > 0` bytes, read back by
`load_symbols` into an empty table with a header that reports offset `P`, the total slot
count and the same format flag, make the load return true (with any fuel above the number
of symbols) and yield the symbols of the saved table in the same order, with the same name
bytes, value, type, storage class, auxiliary records and slot index, the section number
unchanged in wide format and reduced modulo `2 ^ 16` in narrow format, and
`aux_symbols_number` equal to the number of auxiliary records of the symbol; that is the
`aux_symbols_number` of the saved symbol whenever it matched its number of records. Bytes
that follow the table in the stream do not matter. -/
theorem save_load_round_trip (t : coffi_symbols) (hdm : data_model t)
    (pre post : List byte) (header : coff_header) (hpre : pre.length ≠ 0)
    (hoff : header.symbol_table_offset = pre.length)
    (hcnt : header.symbols_count = total_slots t.symbols_)
    (hfmt : header.is_bigobj = t.is_bigobj) (hty : header.typed)
    (stream : istream) (hbuf : stream.buf = t.save_symbols pre ++ post)
    (hfail : stream.failbit = false) (is_bigobj0 : Bool)
    (fuel : Nat) (hfuel : t.symbols_.length < fuel) :
    ({ symbols_ := [], is_bigobj := is_bigobj0 } : coffi_symbols).load_symbols fuel stream
        header =
      some (true,
        { stream with eofbit := false, gpos := (t.save_symbols pre).length },
        { symbols_ := reloaded t.is_bigobj t.symbols_, is_bigobj := t.is_bigobj }) ∧
    ((∀ s ∈ t.symbols_, s.auxs.length = s.header.aux_symbols_number) →
      reloaded t.is_bigobj t.symbols_ =
        if t.is_bigobj then t.symbols_
        else t.symbols_.map fun s =>
          { s with header :=
              { s.header with section_number := s.header.section_number % 2 ^ 16 } }) := by
  have hsym := hdm.1
  constructor
  · rw [save_symbols_eq] at hbuf ⊢
    unfold load_symbols
    simp only [hfmt]
    cases hb : t.is_bigobj with
    | true =>
      simp only [hb, if_true] at hbuf ⊢
      rw [save_load_general Record.big_symbol_record (fun s => s) t hdm
        (fun s _ hst => ⟨hst.1, rfl⟩) pre post header hpre hoff hcnt hty stream hbuf hfail _
        rfl fuel hfuel]
      simp only [reloaded, if_true, Option.some.injEq, Prod.mk.injEq, true_and,
        coffi_symbols.mk.injEq, and_true]
      apply List.map_congr_left
      intro s hs
      obtain ⟨hst, _⟩ := hsym s hs
      have hsec : s.header.section_number % 2 ^ 32 = s.header.section_number :=
        Nat.mod_eq_of_lt hst.1.2.2.1
      simp only [symbol_tmpl.widen_record, hsec]
    | false =>
      simp only [hb, Bool.false_eq_true, if_false] at hbuf ⊢
      rw [save_load_general Record.symbol_record (fun s => s.narrow_record) t hdm
        (fun s _ hst => ⟨⟨hst.1.1, hst.1.2.1, Nat.mod_lt _ (by decide), hst.1.2.2.2⟩, rfl⟩)
        pre post header hpre hoff hcnt hty stream hbuf hfail _ rfl fuel hfuel]
      simp only [reloaded, Bool.false_eq_true, if_false, Option.some.injEq, Prod.mk.injEq,
        true_and, coffi_symbols.mk.injEq, and_true]
      apply List.map_congr_left
      intro s hs
      have hsec : s.header.section_number % 2 ^ 16 % 2 ^ 32 =
          s.header.section_number % 2 ^ 16 :=
        Nat.mod_eq_of_lt (Nat.lt_of_lt_of_le (Nat.mod_lt _ (by decide)) (by decide))
      simp only [symbol_tmpl.widen_record, symbol_tmpl.narrow_record, hsec]
  · intro hmatch
    cases hb : t.is_bigobj with
    | true =>
      simp only [reloaded, if_true]
      conv_rhs => rw [← List.map_id t.symbols_]
      apply List.map_congr_left
      intro s hs
      simp only [hmatch s hs, id]
    | false =>
      simp only [reloaded, Bool.false_eq_true, if_false]
      apply List.map_congr_left
      intro s hs
      simp only [hmatch s hs]

/-- Witness of C1: `sample_table` saved in narrow format behind one byte and loaded back;
the section number 65537 of `main` comes back as 1, everything else is unchanged. -/
theorem save_load_round_trip_witness :
    data_model sample_table ∧
    (⟨1, 3, false⟩ : coff_header).symbols_count = total_slots sample_table.symbols_ ∧
    (⟨[], true⟩ : coffi_symbols).load_symbols 3
        ⟨sample_table.save_symbols [7] ++ [], 0, false, false, false⟩ ⟨1, 3, false⟩ =
      some (true, ⟨sample_table.save_symbols [7] ++ [], 55, false, false, false⟩,
        ⟨[{ header := { name := [109, 97, 105, 110, 0, 0, 0, 0], value := 16,
                        section_number := 1, type := 32, storage_class := 2,
                        aux_symbols_number := 1 },
            auxs := [{ value := List.replicate 18 5 }], index_ := 0 },
          { header := { header_record.zero with section_number := 1 }, auxs := [],
            index_ := 2 }], false⟩) :=
  ⟨⟨by decide, (index_invariant_iff _).mpr (by decide)⟩, by decide,
    ((save_load_round_trip sample_table
      ⟨by decide, (index_invariant_iff _).mpr (by decide)⟩ [7] [] ⟨1, 3, false⟩ (by decide)
      rfl (by decide) rfl (by decide)
      ⟨sample_table.save_symbols [7] ++ [], 0, false, false, false⟩ rfl rfl true 3
      (by decide)).1).trans (by decide)⟩

/-- Counterexample to C1 as stated: `stale_count_table` has values of the field types, one
auxiliary record for its only symbol, and slot index 0, so it meets every condition the
claim lists; its symbol has `aux_symbols_number` 0. Saved in wide format behind one byte
and loaded back with offset 1 and symbol count 2, the load returns true and the symbol
comes back with `aux_symbols_number` 1: `save` writes the number of records, not the
field. -/
theorem save_load_stale_count :
    data_model stale_count_table ∧
    stale_count_table.symbols_.map (fun s => s.header.aux_symbols_number) = [0] ∧
    (⟨1, 2, true⟩ : coff_header).symbols_count = total_slots stale_count_table.symbols_ ∧
    (∃ st loaded,
      (⟨[], false⟩ : coffi_symbols).load_symbols 2
          ⟨stale_count_table.save_symbols [7], 0, false, false, false⟩ ⟨1, 2, true⟩ =
        some (true, st, loaded) ∧
      loaded.symbols_.map (fun s => s.header.aux_symbols_number) = [1] ∧
      loaded.symbols_ ≠ stale_count_table.symbols_) :=
  ⟨⟨by decide, (index_invariant_iff _).mpr (by decide)⟩, by decide, by decide,
    ⟨⟨stale_count_table.save_symbols [7], 41, false, false, false⟩,
      ⟨[one_aux_symbol], true⟩, by decide, by decide, by decide⟩⟩

/-! ### Serialized size and byte layout -/

theorem filesize_fold_mod (l : List symbol) : ∀ acc : Nat,
    (l.foldl (fun filesize s =>
      (filesize + Record.big_symbol_record.sizeof * (1 + s.get_auxiliary_symbols.length))
        % 2 ^ 64 % 2 ^ 32) acc) % 2 ^ 32 =
      (acc + (l.map fun s => 20 * (1 + s.auxs.length)).sum) % 2 ^ 32 := by
  induction l with
  | nil => intro acc; simp
  | cons a rest ih =>
    intro acc
    rw [List.foldl_cons, ih]
    simp only [List.map_cons, List.sum_cons, Record.sizeof, symbol_tmpl.get_auxiliary_symbols]
    omega

theorem filesize_fold_lt (l : List symbol) : ∀ acc : Nat, acc < 2 ^ 32 →
    l.foldl (fun filesize s =>
      (filesize + Record.big_symbol_record.sizeof * (1 + s.get_auxiliary_symbols.length))
        % 2 ^ 64 % 2 ^ 32) acc < 2 ^ 32 := by
  induction l with
  | nil => intro acc h; simpa using h
  | cons a rest ih =>
    intro acc _
    simp only [List.foldl_cons]
    exact ih _ (Nat.mod_lt _ (by decide))

theorem filesize_eq (t : coffi_symbols) :
    t.get_symbols_filesize = (t.symbols_.map fun s => 20 * (1 + s.auxs.length)).sum % 2 ^ 32 := by
  have h1 := filesize_fold_mod t.symbols_ 0
  have h2 := filesize_fold_lt t.symbols_ 0 (by decide)
  unfold get_symbols_filesize
  rw [Nat.mod_eq_of_lt h2, Nat.zero_add] at h1
  exact h1

theorem sum_slots (l : List symbol) :
    (l.map fun s => 20 * (1 + s.auxs.length)).sum = 20 * total_slots l := by
  induction l with
  | nil => simp [total_slots]
  | cons a rest ih =>
    rw [total_slots_cons]
    simp only [List.map_cons, List.sum_cons, ih]
    ring

/-- C17: for every table, `get_symbols_filesize` returns the sum over the stored symbols of
`20 * (1 + number of auxiliary records)`, reduced to 32 bits; the format flag does not
enter the result; it is 0 for a table without symbols and 20 for a table with one symbol
that has no auxiliary record. -/
theorem get_symbols_filesize_formula (t : coffi_symbols) :
    t.get_symbols_filesize =
        (t.symbols_.map fun s => 20 * (1 + s.auxs.length)).sum % 2 ^ 32 ∧
    (∀ b : Bool, ({ symbols_ := t.symbols_, is_bigobj := b } : coffi_symbols).get_symbols_filesize =
      t.get_symbols_filesize) ∧
    (∀ b : Bool, ({ symbols_ := [], is_bigobj := b } : coffi_symbols).get_symbols_filesize = 0) ∧
    (∀ (b : Bool) (s : symbol), s.auxs = [] →
      ({ symbols_ := [s], is_bigobj := b } : coffi_symbols).get_symbols_filesize = 20) := by
  refine ⟨filesize_eq t, fun _ => rfl, fun _ => rfl, ?_⟩
  intro b s hs
  rw [filesize_eq]
  simp [hs]

/-- The number of bytes `save_symbols` appends for a table whose fields hold values of
their types: the record width of the table's format for every slot. -/
theorem save_symbols_length (t : coffi_symbols) (hty : ∀ s ∈ t.symbols_, s.typed)
    (out : ostream) :
    (t.save_symbols out).length =
      out.length + (layout_of t.is_bigobj).sizeof * total_slots t.symbols_ := by
  rw [save_symbols_eq]
  cases hb : t.is_bigobj with
  | true =>
    simp only [if_true, List.length_append, layout_of]
    rw [table_bytes_length Record.big_symbol_record (fun s => s) t.symbols_
      (fun s hs => ⟨(hty s hs).1.1, (hty s hs).2.1, rfl⟩)]
  | false =>
    simp only [Bool.false_eq_true, if_false, List.length_append, layout_of]
    rw [table_bytes_length Record.symbol_record (fun s => s.narrow_record) t.symbols_
      (fun s hs => ⟨(hty s hs).1.1, (hty s hs).2.1, rfl⟩)]

/-- In wide format, and below `2 ^ 32`, `get_symbols_filesize` is the number of bytes
`save_symbols` appends. -/
theorem filesize_wide (t : coffi_symbols) (hty : ∀ s ∈ t.symbols_, s.typed)
    (hb : t.is_bigobj = true) (hsize : 20 * total_slots t.symbols_ < 2 ^ 32) (out : ostream) :
    (t.save_symbols out).length = out.length + t.get_symbols_filesize := by
  rw [save_symbols_length t hty, filesize_eq, sum_slots, Nat.mod_eq_of_lt hsize, hb]
  rfl

/-- C18 (code defect): for the narrow table with the single symbol `slot_symbol 0` (all
fields within their types) `get_symbols_filesize` returns 20 while `save_symbols` writes
18 bytes. -/
theorem filesize_narrow_mismatch :
    ({ symbols_ := [slot_symbol 0], is_bigobj := false } : coffi_symbols).get_symbols_filesize
      = 20 ∧
    (({ symbols_ := [slot_symbol 0], is_bigobj := false } : coffi_symbols).save_symbols
      []).length = 18 ∧
    (∀ s ∈ ({ symbols_ := [slot_symbol 0], is_bigobj := false } : coffi_symbols).symbols_,
      s.typed) := by
  refine ⟨?_, ?_, ?_⟩ <;> decide

theorem save_written (R : Record) (s : symbol_tmpl R) (out : ostream) :
    (s.save out).2 = out ++ R.to_bytes (s.set_aux_symbols_number s.auxs.length).header ++
      (s.auxs.map (slot_bytes R)).flatten := by
  rw [symbol_tmpl.save_eq, save_bytes, List.append_assoc]
  rfl

theorem to_bytes_aux_byte (R : Record) (h : header_record) (hn : h.name.length = 8) :
    byte_at (R.to_bytes h) (R.sizeof - 1) = h.aux_symbols_number % 256 := by
  obtain ⟨name, value, section_number, type, storage_class, aux_symbols_number⟩ := h
  simp only at hn
  obtain ⟨a, b, c, d, e, f, g, i, rfl⟩ := symbol_tmpl.length_eight name hn
  cases R <;> rfl

theorem save_header_byte (R : Record) (s : symbol_tmpl R) (hn : s.header.name.length = 8) :
    byte_at (R.to_bytes (s.set_aux_symbols_number s.auxs.length).header) (R.sizeof - 1) =
      s.auxs.length % 256 := by
  rw [to_bytes_aux_byte R _ (by simpa [symbol_tmpl.set_aux_symbols_number] using hn)]
  simp [symbol_tmpl.set_aux_symbols_number]

/-- C13: `save` appends the `W` header bytes and then, for each auxiliary record in order,
its 18 payload bytes followed by `W - 18` zero bytes (none in narrow format, 2 in wide
format), `(k + 1) * W` bytes for a symbol with `k` auxiliary records; `save_symbols`
appends the bytes of the symbols in collection order, in the layout of the table's format,
`W * sum (1 + k_i)` bytes in all. -/
theorem save_layout (R : Record) (s : symbol_tmpl R) (hs : s.typed) (t : coffi_symbols)
    (ht : ∀ x ∈ t.symbols_, x.typed) (out : ostream) :
    ((s.save out).2 = out ++ R.to_bytes (s.set_aux_symbols_number s.auxs.length).header ++
        (s.auxs.map fun a =>
          a.value ++ List.replicate (R.sizeof - sizeof_auxiliary_symbol_record) 0).flatten ∧
      (R.to_bytes (s.set_aux_symbols_number s.auxs.length).header).length = R.sizeof ∧
      (∀ a ∈ s.auxs, a.value.length = sizeof_auxiliary_symbol_record) ∧
      (s.save out).2.length = out.length + (s.auxs.length + 1) * R.sizeof) ∧
    (Record.symbol_record.sizeof - sizeof_auxiliary_symbol_record = 0 ∧
      Record.big_symbol_record.sizeof - sizeof_auxiliary_symbol_record = 2) ∧
    (t.save_symbols out = out ++ (t.symbols_.map fun x =>
        if t.is_bigobj then (x.save []).2 else (x.narrow_record.save []).2).flatten ∧
      (t.save_symbols out).length =
        out.length + (layout_of t.is_bigobj).sizeof * total_slots t.symbols_) := by
  refine ⟨⟨save_written R s out, ?_, fun a ha => hs.2.1 a ha, ?_⟩, ⟨rfl, rfl⟩,
    ?_, save_symbols_length t ht out⟩
  · exact symbol_tmpl.to_bytes_length R _ (by
      simpa [symbol_tmpl.set_aux_symbols_number] using hs.1.1)
  · rw [symbol_tmpl.save_eq, List.length_append,
      symbol_tmpl.save_bytes_length R s hs.1.1 hs.2.1]
    ring
  · rw [save_symbols_eq]
    cases hb : t.is_bigobj with
    | true =>
      simp only [if_true, table_bytes, symbol_tmpl.save_eq, List.nil_append]
    | false =>
      simp only [Bool.false_eq_true, if_false, table_bytes, symbol_tmpl.save_eq,
        List.nil_append]

/-- C14 (as amended): for a symbol with at most 255 auxiliary records, whatever its
`aux_symbols_number` held before, the bytes `save` appends are a header of `W` bytes and
one slot per auxiliary record, and the `aux_symbols_number` byte of that header (its last
byte) is the number of those slots; so is the field of the symbol after the call. -/
theorem save_header_count (R : Record) (s : symbol_tmpl R) (hn : s.header.name.length = 8)
    (hlen : s.auxs.length ≤ 255) (out : ostream) :
    ∃ (hdr : List byte) (slots : List (List byte)),
      (s.save out).2 = out ++ hdr ++ slots.flatten ∧ hdr.length = R.sizeof ∧
      slots = s.auxs.map (slot_bytes R) ∧
      byte_at hdr (R.sizeof - 1) = slots.length ∧
      (R.of_bytes hdr).aux_symbols_number = slots.length ∧
      (s.save out).1.header.aux_symbols_number = slots.length := by
  refine ⟨_, _, save_written R s out, ?_, rfl, ?_, ?_, ?_⟩
  · exact symbol_tmpl.to_bytes_length R _ (by
      simpa [symbol_tmpl.set_aux_symbols_number] using hn)
  · rw [save_header_byte R s hn, List.length_map]; omega
  · rw [symbol_tmpl.of_bytes_aux, save_header_byte R s hn, List.length_map]; omega
  · simp only [symbol_tmpl.save, symbol_tmpl.set_aux_symbols_number, List.length_map]
    omega

/-- Counterexample to C14 as stated: for the wide symbol with 256 auxiliary records `save`
appends 256 slots after a header whose `aux_symbols_number` byte is 0: the count is
narrowed to 8 bits. -/
theorem save_header_count_wraps :
    ∃ (hdr : List byte) (slots : List (List byte)),
      (many_aux_symbol.save []).2 = [] ++ hdr ++ slots.flatten ∧
      hdr.length = Record.big_symbol_record.sizeof ∧
      slots = many_aux_symbol.auxs.map (slot_bytes Record.big_symbol_record) ∧
      slots.length = 256 ∧
      byte_at hdr (Record.big_symbol_record.sizeof - 1) = 0 ∧
      byte_at hdr (Record.big_symbol_record.sizeof - 1) ≠ slots.length := by
  have hn : many_aux_symbol.header.name.length = 8 := by decide
  have hl : many_aux_symbol.auxs.length = 256 := List.length_replicate _ _
  have hb := save_header_byte Record.big_symbol_record many_aux_symbol hn
  rw [hl] at hb
  refine ⟨_, _, save_written Record.big_symbol_record many_aux_symbol [], ?_, rfl, ?_, ?_, ?_⟩
  · exact symbol_tmpl.to_bytes_length _ _ (by
      simpa [symbol_tmpl.set_aux_symbols_number] using hn)
  · rw [List.length_map, hl]
  · rw [hl, hb]
  · rw [hl, hb, List.length_map, hl]; decide

/-- Witness of C13: `one_aux_symbol` saved in wide format behind one byte occupies 2 slots of
20 bytes; `sample_table`, in narrow format, occupies 3 slots of 18 bytes. -/
theorem save_layout_witness :
    one_aux_symbol.typed ∧ (∀ x ∈ sample_table.symbols_, x.typed) ∧
    (one_aux_symbol.save [7]).2.length = 41 ∧
    (sample_table.save_symbols [7]).length = 55 :=
  ⟨by decide, by decide,
    ((save_layout Record.big_symbol_record one_aux_symbol (by decide) sample_table
      (by decide) [7]).1.2.2.2).trans (by decide),
    ((save_layout Record.big_symbol_record one_aux_symbol (by decide) sample_table
      (by decide) [7]).2.2.2).trans (by decide)⟩

/-- Witness of C14: `one_aux_symbol` with its header count overwritten by 9 is saved with a
header that announces one slot. -/
theorem save_header_count_witness :
    ({ one_aux_symbol with header := { one_aux_symbol.header with aux_symbols_number := 9 } } :
      symbol).auxs.length ≤ 255 ∧
    (({ one_aux_symbol with header := { one_aux_symbol.header with aux_symbols_number := 9 } } :
      symbol).save []).1.header.aux_symbols_number = 1 :=
  ⟨by decide,
    (save_header_count Record.big_symbol_record
      { one_aux_symbol with header := { one_aux_symbol.header with aux_symbols_number := 9 } }
      (by decide) (by decide) []).elim fun _ h => h.elim fun _ h => h.2.2.2.2.2.trans (by
        rw [h.2.2.1]; decide)⟩

/-! ### Loading without a table, widening and narrowing -/

/-- C12: for every stream, symbol count and format flag, `load_symbols` on a newly constructed
table with a header whose symbol-table offset is 0 returns true, with any fuel; the table
has no symbol and carries the header's format flag, and the stream is returned as it was. -/
theorem load_symbols_without_table (fuel : Nat) (stream : istream) (count : Nat)
    (is_bigobj : Bool) :
    coffi_symbols.ctor.load_symbols fuel stream
        { symbol_table_offset := 0, symbols_count := count, is_bigobj := is_bigobj } =
      some (true, stream, { symbols_ := [], is_bigobj := is_bigobj }) := by
  cases is_bigobj <;> simp [coffi_symbols.load_symbols, coffi_symbols.load_symbols_impl,
    coffi_symbols.ctor]

/-- C15: for every wide symbol `x`, `widen_record(narrow_record(x))` has the name bytes, value,
type, storage class, `aux_symbols_number`, auxiliary records and slot index of `x`, and
section number `x.section_number mod 2 ^ 16`; it is `x` when `x.section_number < 2 ^ 16`. -/
theorem widen_after_narrow (x : symbol) :
    x.narrow_record.widen_record.header.name = x.header.name ∧
    x.narrow_record.widen_record.header.value = x.header.value ∧
    x.narrow_record.widen_record.header.type = x.header.type ∧
    x.narrow_record.widen_record.header.storage_class = x.header.storage_class ∧
    x.narrow_record.widen_record.header.aux_symbols_number = x.header.aux_symbols_number ∧
    x.narrow_record.widen_record.auxs = x.auxs ∧
    x.narrow_record.widen_record.index_ = x.index_ ∧
    x.narrow_record.widen_record.header.section_number = x.header.section_number % 2 ^ 16 ∧
    (x.header.section_number < 2 ^ 16 → x.narrow_record.widen_record = x) := by
  have hsec : x.header.section_number % 2 ^ 16 % 2 ^ 32 = x.header.section_number % 2 ^ 16 :=
    Nat.mod_eq_of_lt (Nat.lt_of_lt_of_le (Nat.mod_lt _ (by decide)) (by decide))
  refine ⟨rfl, rfl, rfl, rfl, rfl, rfl, rfl, hsec, ?_⟩
  intro h
  obtain ⟨⟨n, v, sn, ty, sc, ax⟩, auxs, idx⟩ := x
  simp only at h
  simp only [symbol_tmpl.widen_record, symbol_tmpl.narrow_record, Nat.mod_eq_of_lt h,
    Nat.mod_eq_of_lt (Nat.lt_of_lt_of_le h (by decide : 2 ^ 16 ≤ 2 ^ 32))]

/-- C16: for every narrow symbol `y` (its section number is a 16-bit value),
`widen_record(y)` has the name bytes, value, type, storage class, `aux_symbols_number`,
auxiliary records, slot index and section number of `y`, and
`narrow_record(widen_record(y))` is `y`. -/
theorem narrow_after_widen (y : narrow_symbol) (h : y.header.section_number < 2 ^ 16) :
    y.widen_record.header.name = y.header.name ∧
    y.widen_record.header.value = y.header.value ∧
    y.widen_record.header.type = y.header.type ∧
    y.widen_record.header.storage_class = y.header.storage_class ∧
    y.widen_record.header.aux_symbols_number = y.header.aux_symbols_number ∧
    y.widen_record.auxs = y.auxs ∧
    y.widen_record.index_ = y.index_ ∧
    y.widen_record.header.section_number = y.header.section_number ∧
    y.widen_record.header.section_number < 2 ^ 16 ∧
    y.widen_record.narrow_record = y := by
  have h32 : y.header.section_number % 2 ^ 32 = y.header.section_number :=
    Nat.mod_eq_of_lt (Nat.lt_of_lt_of_le h (by decide))
  refine ⟨rfl, rfl, rfl, rfl, rfl, rfl, rfl, h32, ?_, ?_⟩
  · show y.header.section_number % 2 ^ 32 < 2 ^ 16
    rw [h32]; exact h
  · obtain ⟨⟨n, v, sn, ty, sc, ax⟩, auxs, idx⟩ := y
    simp only at h h32
    simp only [symbol_tmpl.widen_record, symbol_tmpl.narrow_record, h32, Nat.mod_eq_of_lt h]

/-- Witness of C16: the narrow symbol with section number 65535 and one auxiliary record. -/
theorem narrow_after_widen_witness :
    narrow_sample.header.section_number < 2 ^ 16 ∧
    narrow_sample.widen_record.header.section_number = 65535 ∧
    narrow_sample.widen_record.narrow_record = narrow_sample :=
  ⟨by decide,
    (narrow_after_widen narrow_sample (by decide)).2.2.2.2.2.2.2.1,
    (narrow_after_widen narrow_sample (by decide)).2.2.2.2.2.2.2.2.2⟩

/-! ### Ascending order and header counts -/

theorem slot_chain_ascending (l : List symbol) : ∀ i, slot_chain i l →
    (∀ s ∈ l, i ≤ s.index_) ∧ ascending l := by
  induction l with
  | nil => intro i _; exact ⟨by simp, List.Pairwise.nil⟩
  | cons a rest ih =>
    intro i h
    rw [slot_chain_cons] at h
    obtain ⟨ha, hrest⟩ := h
    obtain ⟨h1, h2⟩ := ih _ hrest
    refine ⟨?_, ?_⟩
    · intro s hs
      rcases List.mem_cons.mp hs with rfl | hs
      · omega
      · have := h1 s hs; omega
    · unfold ascending
      rw [List.pairwise_cons]
      refine ⟨?_, h2⟩
      intro b hb
      have := h1 b hb
      omega

theorem add_symbol_symbols (t : coffi_symbols) (nts : String → List byte → List byte)
    (name : String) :
    ∃ s : symbol, (t.add_symbol nts name).1.symbols_ = t.symbols_ ++ [s] ∧
      s.auxs = [] ∧ s.header.aux_symbols_number = 0 ∧
      ∀ last, t.symbols_.getLast? = some last →
        s.index_ = (last.index_ + 1 + last.auxs.length) % 2 ^ 32 := by
  refine ⟨_, rfl, ?_, ?_, ?_⟩
  · simp [symbol_tmpl.ctor, symbol_tmpl.set_index, symbol_tmpl.set_name]
  · simp [symbol_tmpl.ctor, symbol_tmpl.set_index, symbol_tmpl.set_name, header_record.zero]
  · intro last hl
    have hne : t.symbols_ ≠ [] := by
      intro h0; simp [h0] at hl
    have hlen : 0 < t.symbols_.length := List.length_pos.mpr hne
    simp [hl, hlen, symbol_tmpl.ctor, symbol_tmpl.set_index, symbol_tmpl.set_name,
      symbol_tmpl.get_index, symbol_tmpl.get_auxiliary_symbols]

theorem ascending_last_max {l : List symbol} (h : ascending l) {last : symbol}
    (hl : l.getLast? = some last) : ∀ a ∈ l, a.index_ ≤ last.index_ := by
  obtain ⟨ys, rfl⟩ := List.getLast?_eq_some_iff.mp hl
  unfold ascending at h
  rw [List.pairwise_append] at h
  intro a ha
  rcases List.mem_append.mp ha with ha | ha
  · exact Nat.le_of_lt (h.2.2 a ha last (by simp))
  · simp at ha; rw [ha]

theorem add_symbol_ascending (t : coffi_symbols) (nts : String → List byte → List byte)
    (name : String) (hasc : ascending t.symbols_)
    (hlast : ∀ last, t.symbols_.getLast? = some last →
      last.index_ + 1 + last.auxs.length < 2 ^ 32) :
    ascending (t.add_symbol nts name).1.symbols_ := by
  obtain ⟨s, hs, _, _, hidx⟩ := add_symbol_symbols t nts name
  rw [hs]
  unfold ascending
  rw [List.pairwise_append]
  refine ⟨hasc, List.pairwise_singleton _ _, ?_⟩
  intro a ha b hb
  simp only [List.mem_singleton] at hb
  subst hb
  cases hl : t.symbols_.getLast? with
  | none =>
    have : t.symbols_ = [] := by simpa using hl
    rw [this] at ha; simp at ha
  | some last =>
    have h1 := ascending_last_max hasc hl a ha
    have h2 := hidx last hl
    have h3 := hlast last hl
    rw [Nat.mod_eq_of_lt h3] at h2
    omega

theorem load_symbols_true_chain (is_bigobj0 : Bool) (fuel : Nat) (stream : istream)
    (header : coff_header) (hcount : header.symbols_count + 255 < 2 ^ 32)
    (st : istream) (loaded : coffi_symbols)
    (hload : ({ symbols_ := [], is_bigobj := is_bigobj0 } : coffi_symbols).load_symbols fuel
      stream header = some (true, st, loaded)) :
    slot_chain 0 loaded.symbols_ := by
  have key : ∀ R : Record,
      load_symbols_impl R { symbols_ := [], is_bigobj := header.is_bigobj } fuel
        stream header = some (true, st, loaded) → slot_chain 0 loaded.symbols_ := by
    intro R hR
    unfold load_symbols_impl at hR
    split_ifs at hR with h0
    · simp only [Option.some.injEq, Prod.mk.injEq, true_and] at hR
      rw [← hR.2]; trivial
    · simp only at hR
      rcases hl : load_symbols_loop R header.symbols_count fuel 0
          (stream.seekg (header.symbol_table_offset : Int)) [] with _ | ⟨ok, st1, out⟩
      · rw [hl] at hR; simp at hR
      · rw [hl] at hR
        simp only [Option.some.injEq, Prod.mk.injEq] at hR
        obtain ⟨hok, _, ht⟩ := hR
        subst hok
        rw [← ht]
        exact load_symbols_loop_chain R _ hcount fuel 0 _ [] st1 out trivial rfl hl
  unfold load_symbols at hload
  simp only at hload
  split_ifs at hload with hb
  · exact key _ hload
  · exact key _ hload

/-- C19 (as amended): the slot indices are strictly ascending in the table without symbols;
in the table of every `load_symbols` into an empty table that returns true, when the
header's symbol count is at most `2 ^ 32 - 256`; and in the table after `add_symbol(name)`,
for every table in which they are and whose last symbol (if any) has
`index + 1 + number of auxiliary records < 2 ^ 32`. -/
theorem ascending_kept (is_bigobj0 : Bool) (fuel : Nat) (stream : istream)
    (header : coff_header) (hcount : header.symbols_count + 255 < 2 ^ 32)
    (st : istream) (loaded : coffi_symbols)
    (hload : ({ symbols_ := [], is_bigobj := is_bigobj0 } : coffi_symbols).load_symbols fuel
      stream header = some (true, st, loaded))
    (t : coffi_symbols) (name_to_string : String → List byte → List byte) (name : String)
    (hasc : ascending t.symbols_)
    (hlast : ∀ last, t.symbols_.getLast? = some last →
      last.index_ + 1 + last.auxs.length < 2 ^ 32) :
    ascending coffi_symbols.ctor.symbols_ ∧ ascending loaded.symbols_ ∧
      ascending (t.add_symbol name_to_string name).1.symbols_ :=
  ⟨List.Pairwise.nil,
    (slot_chain_ascending _ 0
      (load_symbols_true_chain is_bigobj0 fuel stream header hcount st loaded hload)).2,
    add_symbol_ascending t name_to_string name hasc hlast⟩

theorem wrap_table_not_ascending (N : Nat) (hN : 2 ≤ N) : ¬ ascending (wrap_table N) := by
  intro h
  obtain ⟨h1, h2⟩ := wrap_table_get N hN
  have := ascending_lt h h1 h2 (by omega)
  simp only [slot_symbol, wrap_symbol] at this
  omega

/-- Counterexample to C19 as stated: `add_symbol` on the ascending table whose only symbol
has slot index `2 ^ 32 - 1` appends a symbol at slot index 0; and the load of
`wrap_stream (2 ^ 32)` returns true with a table in which slot index `2 ^ 32 - 2` is
followed by slot index 0. -/
theorem ascending_lost :
    (ascending (⟨[⟨header_record.zero, [], 4294967295⟩], true⟩ : coffi_symbols).symbols_ ∧
      ¬ ascending ((⟨[⟨header_record.zero, [], 4294967295⟩], true⟩ : coffi_symbols).add_symbol
        (fun _ n => n) "x").1.symbols_) ∧
    (coffi_symbols.ctor.load_symbols (2 ^ 33) (wrap_stream (2 ^ 32)) (wrap_header (2 ^ 32)) =
        some (true, { wrap_stream (2 ^ 32) with gpos := 36 * 2 ^ 32 - 17 },
          { symbols_ := wrap_table (2 ^ 32), is_bigobj := false }) ∧
      ¬ ascending (wrap_table (2 ^ 32))) :=
  ⟨⟨by decide, by decide⟩, wrap_load (2 ^ 32) rfl 0, wrap_table_not_ascending _ (by norm_num)⟩

theorem load_symbols_loop_counts (R : Record) (count : Nat) :
    ∀ (fuel i : Nat) (stream : istream) (syms : List symbol) (ok : Bool) (st : istream)
      (out : List symbol),
      counts_match syms →
      load_symbols_loop R count fuel i stream syms = some (ok, st, out) →
      counts_match out := by
  intro fuel
  induction fuel with
  | zero => intro i stream syms ok st out _ h; simp [load_symbols_loop] at h
  | succ fuel ih =>
    intro i stream syms ok st out hc h
    rw [load_symbols_loop] at h
    by_cases hlt : i < count
    · simp only [hlt, if_true] at h
      rcases hload : (symbol_tmpl.ctor R).load stream with ⟨ok1, s, st1⟩
      rw [hload] at h
      cases ok1 with
      | false =>
        simp only [Option.some.injEq, Prod.mk.injEq] at h
        rw [← h.2.2]; exact hc
      | true =>
        simp only at h
        obtain ⟨ha1, _, _⟩ := symbol_tmpl.load_true R stream s st1 hload
        refine ih _ _ _ _ _ _ ?_ h
        intro x hx
        rcases List.mem_append.mp hx with hx | hx
        · exact hc x hx
        · simp only [List.mem_singleton] at hx
          rw [hx]
          exact ha1
    · simp only [hlt, if_false, Option.some.injEq, Prod.mk.injEq] at h
      rw [← h.2.2]; exact hc

theorem load_symbols_counts (t : coffi_symbols) (fuel : Nat) (stream : istream)
    (header : coff_header) (ok : Bool) (st : istream) (t1 : coffi_symbols)
    (hc : counts_match t.symbols_)
    (h : t.load_symbols fuel stream header = some (ok, st, t1)) :
    counts_match t1.symbols_ := by
  have key : ∀ (R : Record) (self : coffi_symbols), self.symbols_ = t.symbols_ →
      load_symbols_impl R self fuel stream header = some (ok, st, t1) →
      counts_match t1.symbols_ := by
    intro R self hself hR
    unfold load_symbols_impl at hR
    split_ifs at hR with h0
    · simp only [Option.some.injEq, Prod.mk.injEq] at hR
      rw [← hR.2.2, hself]; exact hc
    · simp only at hR
      rcases hl : load_symbols_loop R header.symbols_count fuel 0
          (stream.seekg (header.symbol_table_offset : Int)) self.symbols_ with
        _ | ⟨ok1, st1, out⟩
      · rw [hl] at hR; simp at hR
      · rw [hl] at hR
        simp only [Option.some.injEq, Prod.mk.injEq] at hR
        rw [← hR.2.2]
        exact load_symbols_loop_counts R _ fuel 0 _ _ ok1 st1 out (by rw [hself]; exact hc) hl
  unfold load_symbols at h
  simp only at h
  split_ifs at h with hb
  · exact key _ { symbols_ := t.symbols_, is_bigobj := header.is_bigobj } rfl h
  · exact key _ { symbols_ := t.symbols_, is_bigobj := header.is_bigobj } rfl h

/-- C20: in every table produced from a newly constructed one by calls of `load_symbols`
(whatever they return, in either format) and of `add_symbol`, the number of auxiliary
records of each symbol is its `aux_symbols_number`. -/
theorem produced_counts_match (t : coffi_symbols) (h : produced t) :
    ∀ s ∈ t.symbols_, s.auxs.length = s.header.aux_symbols_number := by
  induction h with
  | ctor => intro s hs; simp [coffi_symbols.ctor] at hs
  | load_symbols t fuel stream header ok st t1 _ hload ih =>
    exact load_symbols_counts t fuel stream header ok st t1 ih hload
  | add_symbol t nts name _ ih =>
    obtain ⟨s, hs, ha, hn, _⟩ := add_symbol_symbols t nts name
    rw [hs]
    intro x hx
    rcases List.mem_append.mp hx with hx | hx
    · exact ih x hx
    · simp only [List.mem_singleton] at hx
      rw [hx, ha, hn]; rfl

/-! ### A load that fails part-way -/

/-- Witness of C19: the load of `two_symbols` and `add_symbol` on `sample_table`. -/
theorem ascending_kept_witness :
    (⟨[], true⟩ : coffi_symbols).load_symbols 5 ⟨two_symbols, 0, false, false, false⟩
        ⟨1, 3, false⟩ =
      some (true, ⟨two_symbols, 55, false, false, false⟩,
        ⟨[one_aux_symbol, slot_symbol 2], false⟩) ∧
    ascending sample_table.symbols_ ∧
    (∀ last, sample_table.symbols_.getLast? = some last →
      last.index_ + 1 + last.auxs.length < 2 ^ 32) ∧
    ascending [one_aux_symbol, slot_symbol 2] ∧
    ascending (sample_table.add_symbol (fun _ n => n) "x").1.symbols_ :=
  ⟨by decide, by decide,
    (by intro last h; injection h with h; subst h; decide),
    (ascending_kept true 5 ⟨two_symbols, 0, false, false, false⟩ ⟨1, 3, false⟩ (by decide)
      ⟨two_symbols, 55, false, false, false⟩ ⟨[one_aux_symbol, slot_symbol 2], false⟩
      (by decide) sample_table (fun _ n => n) "x" (by decide)
      (by intro last h; injection h with h; subst h; decide)).2⟩

/-- Witness of C20: the table after the load of `two_symbols` and one `add_symbol`. -/
theorem produced_counts_match_witness :
    produced ((⟨[one_aux_symbol, slot_symbol 2], false⟩ : coffi_symbols).add_symbol
      (fun _ n => n) "main").1 ∧
    ∀ s ∈ ((⟨[one_aux_symbol, slot_symbol 2], false⟩ : coffi_symbols).add_symbol
      (fun _ n => n) "main").1.symbols_, s.auxs.length = s.header.aux_symbols_number :=
  (fun hp => ⟨hp, produced_counts_match _ hp⟩)
    (produced.add_symbol _ _ _
      (produced.load_symbols coffi_symbols.ctor 5 ⟨two_symbols, 0, false, false, false⟩
        ⟨1, 3, false⟩ true ⟨two_symbols, 55, false, false, false⟩ _ produced.ctor
        (by decide)))

end COFFI
